import Mathlib

/-!
# Fermionic operator terms of pomerol (`src/Operator.cpp`)

A shallow embedding of `Pomerol::Operator::Term`.  A term is a product of `N` elementary
fermionic operators with a scalar coefficient.  Methods that mutate the term in place are
functions that return the new term; methods that can throw return `Except TermError`.

Coefficients (`MelemType`, a complex floating point number in the source) are integers here.
`Value *= (-1.)` and `-Value` are negation, which floating point performs without rounding.  The
sum of two coefficients (`+=` at line 289), which floating point rounds, is a parameter `add`
of the functions that reach it; nothing is assumed of it.
-/

namespace Pomerol

/-- The failures a `Term` method can end in: the two exception classes of the source
(`exWrongLabel`, `exWrongOpSequence`), a failed `assert`, and the exhaustion of the recursion
budget of the embedding. -/
inductive TermError where
  | exWrongLabel
  | exWrongOpSequence
  | assertFailed
  | outOfFuel
  deriving DecidableEq, Repr

/-- Equality of results is decidable. -/
instance instDecidableEqExcept {ε α : Type} [DecidableEq ε] [DecidableEq α] :
    DecidableEq (Except ε α)
  | .ok a, .ok b =>
    if h : a = b then isTrue (by rw [h]) else isFalse (fun h1 => h (by injection h1))
  | .error a, .error b =>
    if h : a = b then isTrue (by rw [h]) else isFalse (fun h1 => h (by injection h1))
  | .ok _, .error _ => isFalse (fun h => by cases h)
  | .error _, .ok _ => isFalse (fun h => by cases h)

/-- Modelled from the spec: the Fock state type `FockState` and its sentinel `ERROR_FOCK_STATE`
are declared in a header that is not among the sources.  A valid state is a fixed-length bit
vector with one occupation bit per mode; the sentinel is distinct from every valid state. -/
inductive FockState where
  | state (bits : List Bool)
  | ERROR_FOCK_STATE
  deriving DecidableEq, Repr

/-- The data members of `Operator::Term`. -/
structure Term where
  N : Nat
  OperatorSequence : List Bool
  Indices : List Nat
  Value : Int
  deriving DecidableEq, Repr

/-- Entry `i` of a `std::vector<bool>`. -/
def seqAt (s : List Bool) (i : Nat) : Bool := s.getD i false

/-- Entry `i` of a `std::vector<ParticleIndex>`. -/
def indAt (s : List Nat) (i : Nat) : Nat := s.getD i 0

/-- The bit `ket[j]` of an occupation pattern. -/
def bitAt (s : List Bool) (j : Nat) : Bool := s.getD j false

/-- The integer `2*Sequence[i]-1`: `+1` for a creation operator, `-1` for an annihilation
operator. -/
def opCount (b : Bool) : Int := 2 * (if b then 1 else 0) - 1

/-- The inner loop of the constructor (lines 47-52) over the positions `js`, with the running
`count_index`; `none` when the loop throws. -/
def ctorInner (Sequence : List Bool) (Indices : List Nat) (i : Nat) :
    List Nat → Int → Option Int
  | [], count_index => some count_index
  | j :: js, count_index =>
    if indAt Indices i = indAt Indices j then
      let c := count_index + opCount (seqAt Sequence j)
      if c > 1 ∨ c < -1 then none else ctorInner Sequence Indices i js c
    else ctorInner Sequence Indices i js count_index

/-- The outer loop of the constructor (lines 44-53) over the positions `is`; `false` when some
inner loop throws. -/
def ctorOuter (N : Nat) (Sequence : List Bool) (Indices : List Nat) : List Nat → Bool
  | [] => true
  | i :: is =>
    match ctorInner Sequence Indices i (List.range' (i + 1) (N - (i + 1)))
        (opCount (seqAt Sequence i)) with
    | none => false
    | some _ => ctorOuter N Sequence Indices is

/-- The constructor `Operator::Term::Term` (lines 40-54). -/
def Term.new (N : Nat) (Sequence : List Bool) (Indices : List Nat) (Value : Int) :
    Except TermError Term :=
  if Sequence.length ≠ N ∨ Indices.length ≠ N then .error .exWrongLabel
  else if ctorOuter N Sequence Indices (List.range N) then
    .ok { N := N, OperatorSequence := Sequence, Indices := Indices, Value := Value }
  else .error .exWrongOpSequence

/-- The first branch of `elementary_swap` (lines 142-146): negate the coefficient and exchange
the entries at `position` and `position+1` of both vectors. -/
def Term.forcedSwap (t : Term) (position : Nat) : Term :=
  { t with
    Value := t.Value * (-1)
    OperatorSequence :=
      (t.OperatorSequence.set position (seqAt t.OperatorSequence (position + 1))).set
        (position + 1) (seqAt t.OperatorSequence position)
    Indices :=
      (t.Indices.set position (indAt t.Indices (position + 1))).set
        (position + 1) (indAt t.Indices position) }

/-- The method `elementary_swap` (lines 138-157): the term after the call and the list it
returns. -/
def Term.elementary_swap (t : Term) (position : Nat) (force_ignore_commutation : Bool) :
    Except TermError (Term × List Term) :=
  if indAt t.Indices position ≠ indAt t.Indices (position + 1) ∨ force_ignore_commutation then
    .ok (t.forcedSwap position, [])
  else
    let Seq2 := (List.range (t.N - 2)).map fun i =>
      if i < position then seqAt t.OperatorSequence i else seqAt t.OperatorSequence (i + 2)
    let Ind2 := (List.range (t.N - 2)).map fun i =>
      if i < position then indAt t.Indices i else indAt t.Indices (i + 2)
    match Term.new (t.N - 2) Seq2 Ind2 t.Value with
    | .error e => .error e
    | .ok aux => .ok (t.forcedSwap position, [aux])

/-- The search loop of `rearrange` (line 65): starting at `j`, skip every position whose
operator has the type of the operator at `i` or already has the desired type. -/
def findSwap (Seq Desired : List Bool) (N i : Nat) : Nat → Nat → Nat
  | 0, j => j
  | fuel + 1, j =>
    if j < N ∧ (seqAt Seq j = seqAt Seq i ∨ seqAt Seq j = seqAt Desired j) then
      findSwap Seq Desired N i fuel (j + 1)
    else j

/-- A run of non-forced elementary swaps at the positions `ks` in turn (the bodies of the loops
at lines 80-85 and 86-90), appending what each returns to `out`. -/
def swapWalk : List Nat → Term → List Term → Except TermError (Term × List Term)
  | [], t, out => .ok (t, out)
  | k :: ks, t, out =>
    match t.elementary_swap k false with
    | .error e => .error e
    | .ok (t1, out_temp) => swapWalk ks t1 (out ++ out_temp)

/-- The loop over `i` of `rearrange` (lines 62-93) on the positions `is`. -/
def rearrangeLoop (Desired : List Bool) :
    List Nat → Term → List Term → Except TermError (Term × List Term)
  | [], t, out => .ok (t, out)
  | i :: is, t, out =>
    if seqAt t.OperatorSequence i ≠ seqAt Desired i then
      let j := findSwap t.OperatorSequence Desired t.N i t.N (i + 1)
      if j = t.N then .error .exWrongOpSequence
      else if t.N = 2 then
        match t.elementary_swap 0 true with
        | .error e => .error e
        | .ok (t1, _) => .ok (t1, out)
      else
        let needNewTerms := (List.range' (i + 1) (j - (i + 1))).any fun k =>
          indAt t.Indices k = indAt t.Indices i ∨ indAt t.Indices k = indAt t.Indices j
        if ¬ needNewTerms then
          rearrangeLoop Desired is
            { t with
              Value := t.Value * (-1)
              OperatorSequence :=
                (t.OperatorSequence.set i (! seqAt t.OperatorSequence i)).set j
                  (! seqAt t.OperatorSequence j)
              Indices := (t.Indices.set i (indAt t.Indices j)).set j (indAt t.Indices i) }
            out
        else
          match swapWalk ((List.range' i (j - i)).reverse) t out with
          | .error e => .error e
          | .ok (t1, out1) =>
            match swapWalk (List.range' (i + 1) (j - (i + 1))) t1 out1 with
            | .error e => .error e
            | .ok (t2, out2) => rearrangeLoop Desired is t2 out2
    else rearrangeLoop Desired is t out

/-- The method `rearrange` (lines 56-96): the term after the call and the list it returns.
On a term whose vectors have `N` entries the loop bound `N-1` does not wrap around: with `N = 0`
both sequences are empty and line 60 returns. -/
def Term.rearrange (t : Term) (DesiredSequence : List Bool) :
    Except TermError (Term × List Term) :=
  if DesiredSequence.length ≠ t.OperatorSequence.length then .error .exWrongOpSequence
  else if t.OperatorSequence = DesiredSequence then .ok (t, [])
  else rearrangeLoop DesiredSequence (List.range (t.N - 1)) t []

/-- One pass of the body of the inner loop of `reorder` (lines 106-113) at position `j`. -/
def reorderStep (ascend : Bool) (t : Term) (j : Nat) : Term :=
  if ascend then
    let t1 := if indAt t.Indices (j + 1) < indAt t.Indices j then t.forcedSwap j else t
    if indAt t1.Indices (j + 1 + t1.N / 2) < indAt t1.Indices (j + t1.N / 2) then
      t1.forcedSwap (j + t1.N / 2)
    else t1
  else
    let t1 := if indAt t.Indices (j + 1) > indAt t.Indices j then t.forcedSwap j else t
    if indAt t1.Indices (j + 1 + t1.N / 2) > indAt t1.Indices (j + t1.N / 2) then
      t1.forcedSwap (j + t1.N / 2)
    else t1

/-- The positions `j` the inner loop of `reorder` visits in pass `i` (line 104): from
`i*(!ascend)` up to, and excluding, `N/2-i*ascend-1`. -/
def reorderRange (N : Nat) (ascend : Bool) (i : Nat) : List Nat :=
  let lo := i * (if ascend then 0 else 1)
  let hi := N / 2 - i * (if ascend then 1 else 0) - 1
  List.range' lo (hi - lo)

/-- The method `reorder` (lines 98-115). -/
def Term.reorder (t : Term) (ascend : Bool) : Except TermError Term :=
  if t.N = 0 then .ok t
  else if ¬ (seqAt t.OperatorSequence 0 = true ∧ seqAt t.OperatorSequence (t.N - 1) = false) then
    .error .assertFailed
  else
    .ok ((List.range (t.N / 2)).foldl
      (fun t1 i => (reorderRange t.N ascend i).foldl (reorderStep ascend) t1) t)

/-- The target pattern `makeNormalOrder` builds (lines 121-126): a creation operator is
inserted at the front, an annihilation operator is pushed at the back. -/
def normalOrderedSequence (t : Term) : List Bool :=
  (List.range t.N).foldl
    (fun s i => if ¬ seqAt t.OperatorSequence i then s ++ [false] else true :: s) []

/-- The loop of `makeNormalOrder` over the list `out` (lines 130-134).  The iterator stands at
the head of the third argument and the second argument holds what lies before it; `f` is the
recursive call, and what it returns is spliced in front of the last element of the list. -/
def normalOrderLoop (f : Term → Except TermError (Term × List Term)) :
    Nat → List Term → List Term → Except TermError (List Term)
  | _, before, [] => .ok before
  | 0, _, _ :: _ => .error .outOfFuel
  | fuel + 1, before, cur :: after =>
    match f cur with
    | .error e => .error e
    | .ok (cur1, out2) =>
      match after.getLast? with
      | none => .ok (before ++ out2 ++ [cur1])
      | some last =>
        normalOrderLoop f fuel (before ++ [cur1]) (after.dropLast ++ out2 ++ [last])

/-- The method `makeNormalOrder` (lines 117-136) with a budget for the recursion and the
iteration: the term after the call and the list it returns.  A run of the source that returns
corresponds to a budget that is large enough; a larger budget does not change the result.
`reorder()` is called with its default argument, which the specification gives as ascending (the
header that declares it is not among the sources). -/
def makeNormalOrderFuel : Nat → Term → Except TermError (Term × List Term)
  | 0, _ => .error .outOfFuel
  | fuel + 1, t =>
    match t.rearrange (normalOrderedSequence t) with
    | .error e => .error e
    | .ok (t1, out) =>
      match t1.reorder true with
      | .error e => .error e
      | .ok t2 =>
        match normalOrderLoop (makeNormalOrderFuel fuel) fuel [] out with
        | .error e => .error e
        | .ok out1 => .ok (t2, out1)

/-- The sign loops of `actRight` (lines 176 and 178): one factor `-1` for every position of
`js` whose bit is set in `ket`. -/
def signLoop (ket : List Bool) (js : List Nat) (sign : Int) : Int :=
  js.foldl (fun s j => if bitAt ket j then s * (-1) else s) sign

/-- The loop of `actRight` (lines 171-181) over the positions `is`, with the running state `bra`
and the running `sign`.  The variable `prev_pos_` is never assigned in the loop. -/
def actRightLoop (t : Term) (ket : List Bool) (prev_pos_ : Nat) :
    List Nat → List Bool → Int → FockState × Int
  | [], bra, sign => (.state bra, t.Value * sign)
  | i :: is, bra, sign =>
    if seqAt t.OperatorSequence i = bitAt bra (indAt t.Indices i) then (.ERROR_FOCK_STATE, 0)
    else
      let bra1 := bra.set (indAt t.Indices i) (seqAt t.OperatorSequence i)
      let sign1 :=
        if indAt t.Indices i > prev_pos_ then
          signLoop ket (List.range' prev_pos_ (indAt t.Indices i - prev_pos_)) sign
        else
          signLoop ket (List.range' (indAt t.Indices i + 1) (prev_pos_ - indAt t.Indices i)).reverse
            sign
      actRightLoop t ket prev_pos_ is bra1 sign1

/-- The method `actRight` (lines 166-183) on a valid basis state `ket`. -/
def Term.actRight (t : Term) (ket : List Bool) : FockState × Int :=
  actRightLoop t ket 0 (List.range t.N).reverse ket 1

/-- The method `getMatrixElement` (lines 159-164). -/
def Term.getMatrixElement (t : Term) (bra : FockState) (ket : List Bool) : Int :=
  if (t.actRight ket).1 = bra then (t.actRight ket).2 else 0

/-- The method `isExactlyEqual` (lines 206-212). -/
def Term.isExactlyEqual (t rhs : Term) : Bool :=
  let out := decide (t.N = rhs.N ∧ t.Value = rhs.Value)
  if ¬ out then false
  else
    (List.range t.N).foldl
      (fun o i =>
        o && decide (seqAt t.OperatorSequence i = seqAt rhs.OperatorSequence i) &&
          decide (indAt t.Indices i = indAt rhs.Indices i))
      out

/-- The inner loop of `reduce` (lines 286-296): `it2` runs over the terms behind `it1`; a term
with the sequence and indices of `it1` is added to it and erased.  `add` is the addition of the
coefficient type (`+=` at line 289). -/
def reduceInner (add : Int → Int → Int) (t1 : Term) : List Term → Term × List Term
  | [] => (t1, [])
  | t2 :: rest =>
    if t2.OperatorSequence = t1.OperatorSequence ∧ t2.Indices = t1.Indices then
      reduceInner add { t1 with Value := add t1.Value t2.Value } rest
    else ((reduceInner add t1 rest).1, t2 :: (reduceInner add t1 rest).2)

/-- The outer loop of `reduce` (lines 285-298); every pass consumes one term of the list. -/
def reduceOuter (add : Int → Int → Int) : Nat → List Term → List Term
  | 0, Terms => Terms
  | _ + 1, [] => []
  | fuel + 1, t1 :: rest =>
    (reduceInner add t1 rest).1 :: reduceOuter add fuel (reduceInner add t1 rest).2

/-- The static method `reduce` (lines 282-299). -/
def Term.reduce (add : Int → Int → Int) (Terms : List Term) : List Term :=
  reduceOuter add Terms.length Terms

/-- The static method `prune` (lines 301-306): `erase` returns the iterator behind the erased
term and the loop header then increments it once more.  When the erased term is the last one the
increment acts on `end()`, which has no defined result: `none`. -/
def Term.prune : List Term → Int → Option (List Term)
  | [], _ => some []
  | [t], Precision => if |t.Value| < Precision then none else some [t]
  | t :: u :: rest, Precision =>
    if |t.Value| < Precision then (Term.prune rest Precision).map (u :: ·)
    else (Term.prune (u :: rest) Precision).map (t :: ·)

/-- The comparison `operator==` (lines 214-236), with the budget handed to `makeNormalOrder`. -/
def Term.operatorEq (add : Int → Int → Int) (fuel : Nat) (t rhs : Term) :
    Except TermError Bool :=
  if rhs.isExactlyEqual t then .ok true
  else
    match makeNormalOrderFuel fuel t with
    | .error e => .error e
    | .ok (this_copy, l1) =>
      match makeNormalOrderFuel fuel rhs with
      | .error e => .error e
      | .ok (rhs_copy, l2) =>
        let list_lhs := Term.reduce add l1
        let list_rhs := Term.reduce add l2
        if ¬ this_copy.isExactlyEqual rhs_copy ∨ list_lhs.length ≠ list_rhs.length then .ok false
        else .ok ((list_lhs.zip list_rhs).foldl (fun o p => o && p.1.isExactlyEqual p.2) true)

/-- One half of `getCommutator` (lines 250-256 and 260-266): the constructor call inside
`try`; only `exWrongOpSequence` is caught. -/
def tryPush (out : List Term) (r : Except TermError Term) : Except TermError (List Term) :=
  match r with
  | .ok x => .ok (out ++ [x])
  | .error .exWrongOpSequence => .ok out
  | .error e => .error e

/-- The method `getCommutator` (lines 240-269). -/
def Term.getCommutator (t rhs : Term) : Except TermError (List Term) :=
  let Ntotal := t.N + rhs.N
  let SeqA := (List.range Ntotal).map fun i =>
    if i < t.N then seqAt t.OperatorSequence i else seqAt rhs.OperatorSequence (i - t.N)
  let IndA := (List.range Ntotal).map fun i =>
    if i < t.N then indAt t.Indices i else indAt rhs.Indices (i - t.N)
  match tryPush [] (Term.new Ntotal SeqA IndA t.Value) with
  | .error e => .error e
  | .ok out =>
    let SeqB := (List.range Ntotal).map fun i =>
      if i < rhs.N then seqAt rhs.OperatorSequence i else seqAt t.OperatorSequence (i - rhs.N)
    let IndB := (List.range Ntotal).map fun i =>
      if i < rhs.N then indAt rhs.Indices i else indAt t.Indices (i - rhs.N)
    tryPush out (Term.new Ntotal SeqB IndB (-t.Value))

/-- The method `commutes` (lines 271-280).  Both `term1` and `term2` are read through
`out_terms->begin()`: the postfix `++` yields the iterator it was applied to. -/
def Term.commutes (add : Int → Int → Int) (fuel : Nat) (t rhs : Term) :
    Except TermError Bool :=
  match t.getCommutator rhs with
  | .error e => .error e
  | .ok out_terms =>
    if out_terms.length = 0 then .ok true
    else if out_terms.length = 1 then .ok false
    else if out_terms.length ≠ 2 then .error .assertFailed
    else
      match out_terms.head? with
      | none => .error .assertFailed
      | some term1 =>
        let term2 := term1
        Term.operatorEq add fuel term1 term2

/-- The vanishing condition in the words of the specification: some mode index carries two
operators of the same type, at positions `i < j < N`, with no operator of the opposite type on
that mode between them. -/
def Vanishes (N : Nat) (Sequence : List Bool) (Indices : List Nat) : Prop :=
  ∃ j, j < N ∧ ∃ i, i < j ∧ indAt Indices i = indAt Indices j ∧
    seqAt Sequence i = seqAt Sequence j ∧
    ∀ k, k < j → i < k → indAt Indices k = indAt Indices i → seqAt Sequence k = seqAt Sequence i

instance instDecidableVanishes (N : Nat) (Sequence : List Bool) (Indices : List Nat) :
    Decidable (Vanishes N Sequence Indices) := by
  unfold Vanishes; infer_instance

/-- Normal order in the words of the specification: every creation operator stands to the left
of every annihilation operator, and the mode indices do not decrease within the creation block
and within the annihilation block. -/
def NormalOrdered (t : Term) : Prop :=
  (∀ j, j < t.N → ∀ i, i < t.N → seqAt t.OperatorSequence i = true →
      seqAt t.OperatorSequence j = false → i < j) ∧
  (∀ j, j < t.N → ∀ i, i < j → seqAt t.OperatorSequence i = seqAt t.OperatorSequence j →
      indAt t.Indices i ≤ indAt t.Indices j)

instance instDecidableNormalOrdered (t : Term) : Decidable (NormalOrdered t) := by
  unfold NormalOrdered; infer_instance

/-- A term with equally many creation and annihilation operators. -/
def Balanced (t : Term) : Prop :=
  t.OperatorSequence.count true = t.OperatorSequence.count false

instance instDecidableBalanced (t : Term) : Decidable (Balanced t) := by
  unfold Balanced; infer_instance

/-- The class invariant of `Term`: both vectors have `N` entries. -/
def WellFormed (t : Term) : Prop :=
  t.OperatorSequence.length = t.N ∧ t.Indices.length = t.N

instance instDecidableWellFormed (t : Term) : Decidable (WellFormed t) := by
  unfold WellFormed; infer_instance

/-- A term the constructor accepts. -/
def ValidTerm (t : Term) : Prop :=
  Term.new t.N t.OperatorSequence t.Indices t.Value = .ok t

instance instDecidableValidTerm (t : Term) : Decidable (ValidTerm t) := by
  unfold ValidTerm; infer_instance

/-- The running state the operator at position `i` finds among the first `n` operators of the
term: `bra` after the operators at the positions `n-1`, ..., `i+1` have set their bits, the
rightmost first. -/
def runningStateFrom (t : Term) (bra : List Bool) (n i : Nat) : List Bool :=
  (List.range' (i + 1) (n - (i + 1))).reverse.foldl
    (fun b k => b.set (indAt t.Indices k) (seqAt t.OperatorSequence k)) bra

/-- The running state the operator at position `i` of the term finds when the term is applied
to `ket`. -/
def runningState (t : Term) (ket : List Bool) (i : Nat) : List Bool :=
  runningStateFrom t ket t.N i

/-- The number of modes strictly between the mode indices `a` and `b` that are occupied in
`ket`. -/
def occupiedBetween (ket : List Bool) (a b : Nat) : Nat :=
  ((List.range (max a b)).filter fun j => decide (min a b < j) && bitAt ket j).length

/-- The exponent of the sign in the words of the specification over the positions `is`, `prev`
being the mode index of the operator applied before. -/
def specSignExponentLoop (t : Term) (ket : List Bool) : List Nat → Nat → Nat
  | [], _ => 0
  | i :: is, prev =>
    occupiedBetween ket prev (indAt t.Indices i) +
      specSignExponentLoop t ket is (indAt t.Indices i)

/-- The exponent of the sign in the words of the specification: the total, over the operators
taken from the rightmost to the leftmost, of the number of occupied modes strictly between the
mode index of the operator applied before (initially `0`, the initial value of `prev_pos_`) and
that of the current operator. -/
def specSignExponent (t : Term) (ket : List Bool) : Nat :=
  specSignExponentLoop t ket (List.range t.N).reverse 0

/-- The sequence and the indices of a term, the part `reduce` compares. -/
def Term.key (t : Term) : List Bool × List Nat := (t.OperatorSequence, t.Indices)

/-- The terms of a list that are the first of their sequence and indices, in their order;
`seen` holds the keys met before. -/
def firstOccurrences : List (List Bool × List Nat) → List Term → List Term
  | _, [] => []
  | seen, t :: l =>
    if t.key ∈ seen then firstOccurrences seen l else t :: firstOccurrences (t.key :: seen) l

/-- The sum of a list of coefficients taken from left to right, the way `+=` accumulates
them. -/
def sumInOrder (add : Int → Int → Int) : List Int → Int
  | [] => 0
  | v :: vs => vs.foldl add v

/-- The sum of the coefficients of all terms of the list that have the sequence and indices of
`t`, taken in the order of the list. -/
def coefficientSum (add : Int → Int → Int) (Terms : List Term) (t : Term) : Int :=
  sumInOrder add ((Terms.filter fun u => decide (u.key = t.key)).map Term.Value)

/-- Reduction in the words of the specification: one term for every sequence and indices, in the
order of first occurrence, with the sum of the coefficients of the terms merged into it. -/
def specReduce (add : Int → Int → Int) (Terms : List Term) : List Term :=
  (firstOccurrences [] Terms).map fun t => { t with Value := coefficientSum add Terms t }

/-- The data member of `Operator`: the list of its terms. -/
structure Operator where
  Terms : List Term
  deriving DecidableEq, Repr

/-- The call `l.splice(boost::prior(l.end()), ins)` (lines 371, 373 and 405): `ins` is moved in
front of the last element of `l`.  On an empty `l` the position is taken to be `l.end()`: the
node in front of the sentinel of an empty circular list is the sentinel. -/
def spliceBeforeLast (l ins : List Term) : List Term :=
  match l.getLast? with
  | none => ins
  | some last => l.dropLast ++ ins ++ [last]

/-- The inner loop of `Operator::getCommutator` (lines 401-407) over the terms of `rhs`. -/
def getCommutatorInner (t : Term) : List Term → List Term → Except TermError (List Term)
  | [], output => .ok output
  | t2 :: rest, output =>
    match t.getCommutator t2 with
    | .error e => .error e
    | .ok out2 => getCommutatorInner t rest (spliceBeforeLast output out2)

/-- The outer loop of `Operator::getCommutator` (lines 400-407) over the own terms. -/
def getCommutatorOuter (rhsTerms : List Term) :
    List Term → List Term → Except TermError (List Term)
  | [], output => .ok output
  | t :: rest, output =>
    match getCommutatorInner t rhsTerms output with
    | .error e => .error e
    | .ok output1 => getCommutatorOuter rhsTerms rest output1

/-- The method `Operator::getCommutator` (lines 396-410). -/
def Operator.getCommutator (A rhs : Operator) : Except TermError Operator :=
  match getCommutatorOuter rhs.Terms A.Terms [] with
  | .error e => .error e
  | .ok output => .ok ⟨output⟩

/-- The loop of `Operator::makeNormalOrder` (lines 369-372): every term is normal-ordered in
place and what the call returns is spliced into `output`.  The second argument holds the terms
already visited. -/
def operatorNormalOrderLoop (fuel : Nat) :
    List Term → List Term → List Term → Except TermError (List Term × List Term)
  | [], done, output => .ok (done, output)
  | t :: rest, done, output =>
    match makeNormalOrderFuel fuel t with
    | .error e => .error e
    | .ok (t1, out) => operatorNormalOrderLoop fuel rest (done ++ [t1]) (spliceBeforeLast output out)

/-- The method `Operator::makeNormalOrder` (lines 366-376).  `Precision` is the default
argument of `Operator::prune`, which is declared in a header that is not among the sources; the
inner `none` is the undefined outcome of `Term::prune`. -/
def Operator.makeNormalOrder (add : Int → Int → Int) (fuel : Nat) (Precision : Int)
    (A : Operator) : Except TermError (Option Operator) :=
  match operatorNormalOrderLoop fuel A.Terms [] [] with
  | .error e => .error e
  | .ok (terms1, output) =>
    .ok ((Term.prune (Term.reduce add (spliceBeforeLast terms1 output)) Precision).map
      Operator.mk)

/-- The operator `Operator::commutes` holds in `out_return` when it returns (lines 415-424): the
commutator, normal-ordered, reduced and pruned. -/
def Operator.commutatorNormalForm (add : Int → Int → Int) (fuel : Nat) (Precision : Int)
    (A rhs : Operator) : Except TermError (Option Operator) :=
  match A.getCommutator rhs with
  | .error e => .error e
  | .ok out_return =>
    match out_return.makeNormalOrder add fuel Precision with
    | .error e => .error e
    | .ok none => .ok none
    | .ok (some r1) => .ok ((Term.prune (Term.reduce add r1.Terms) Precision).map Operator.mk)

/-- The method `Operator::commutes` (lines 412-427).  The local variable `out` is declared
without an initial value, is never assigned and is returned; `out` stands for the value it
happens to hold. -/
def Operator.commutes (add : Int → Int → Int) (out : Bool) (fuel : Nat) (Precision : Int)
    (A rhs : Operator) : Except TermError (Option Bool) :=
  match Operator.commutatorNormalForm add fuel Precision A rhs with
  | .error e => .error e
  | .ok r => .ok (r.map fun _ => out)

/-- The sum of the matrix elements of the terms of a list. -/
def matrixElementSum (l : List Term) (bra : FockState) (ket : List Bool) : Int :=
  (l.map fun t => t.getMatrixElement bra ket).sum

/-- The list with the entries at `p` and `p+1` exchanged, the way `elementary_swap` writes them
(lines 143-146). -/
def swapAt {α : Type} (d : α) (l : List α) (p : Nat) : List α :=
  (l.set p (l.getD (p + 1) d)).set (p + 1) (l.getD p d)

/-- The list with the entries at `p` and `p+1` removed. -/
def removePair {α : Type} (l : List α) (p : Nat) : List α :=
  l.take p ++ l.drop (p + 2)

/-- The comparison and exchange `reorder(true)` performs at the positions `j` and `j+1`
(lines 107 and 108), on the vector of mode indices. -/
def compareSwap (I : List Nat) (j : Nat) : List Nat :=
  if indAt I (j + 1) < indAt I j then swapAt 0 I j else I

/-- One pass of the inner loop of `reorder(true)` over one block: the positions `0`, ...,
`k-1` in turn. -/
def bubblePass (k : Nat) (I : List Nat) : List Nat :=
  (List.range' 0 k).foldl compareSwap I

/-- The passes of `reorder(true)` over one block of `h` mode indices. -/
def bubbleSort (h : Nat) (I : List Nat) : List Nat :=
  (List.range h).foldl (fun l i => bubblePass (h - i - 1) l) I

/-! ## Theorems -/

theorem opCount_eq_iff (a b : Bool) : opCount a = opCount b ↔ a = b := by
  cases a <;> cases b <;> simp [opCount]

theorem opCount_cases (a : Bool) : opCount a = 1 ∨ opCount a = -1 := by
  cases a <;> simp [opCount]

/-- When the inner loop of the constructor throws, two neighbouring operators of one mode have
the same type. -/
theorem ctorInner_none_imp (S : List Bool) (I : List Nat) (i : Nat) :
    ∀ (n a last : Nat) (c : Int),
      (c = 0 ∨ c = opCount (seqAt S last)) → indAt I last = indAt I i → last < a →
      (∀ k, last < k → k < a → indAt I k ≠ indAt I i) →
      ctorInner S I i (List.range' a n) c = none →
      ∃ p j, p < j ∧ j < a + n ∧ indAt I p = indAt I j ∧ seqAt S p = seqAt S j ∧
        ∀ k, p < k → k < j → indAt I k = indAt I p → seqAt S k = seqAt S p := by
  intro n
  induction n with
  | zero => intro a last c _ _ _ _ h; simp [ctorInner] at h
  | succ n ih =>
    intro a last c hc hl hlt hgap h
    rw [List.range'_succ] at h
    simp only [ctorInner] at h
    by_cases hia : indAt I i = indAt I a
    · rw [if_pos hia] at h
      by_cases hthrow : c + opCount (seqAt S a) > 1 ∨ c + opCount (seqAt S a) < -1
      · refine ⟨last, a, hlt, by omega, by rw [hl, hia], ?_, ?_⟩
        · rw [← opCount_eq_iff]
          rcases opCount_cases (seqAt S a) with h1 | h1 <;>
            rcases opCount_cases (seqAt S last) with h2 | h2 <;>
            rcases hc with hc | hc <;> omega
        · intro k hk1 hk2 hk3
          exact absurd (hk3.trans hl) (hgap k hk1 hk2)
      · rw [if_neg hthrow] at h
        have := ih (a + 1) a (c + opCount (seqAt S a)) (by
            rcases opCount_cases (seqAt S a) with h1 | h1 <;>
            rcases opCount_cases (seqAt S last) with h2 | h2 <;>
            rcases hc with hc | hc <;> omega) hia.symm (by omega)
          (by intro k h1 h2; omega) h
        obtain ⟨p, j, h1, h2, h3⟩ := this
        exact ⟨p, j, h1, by omega, h3⟩
    · rw [if_neg hia] at h
      have := ih (a + 1) last c hc hl (by omega) (by
        intro k h1 h2
        by_cases hk : k = a
        · subst hk; exact fun h' => hia h'.symm
        · exact hgap k h1 (by omega)) h
      obtain ⟨p, j, h1, h2, h3⟩ := this
      exact ⟨p, j, h1, by omega, h3⟩

/-- The inner loop of the constructor throws when an operator of the type and mode of the
operator at `i` follows with no operator of the opposite type on that mode between them. -/
theorem ctorInner_none_of (S : List Bool) (I : List Nat) (i j : Nat)
    (hI : indAt I i = indAt I j) (hS : seqAt S i = seqAt S j) :
    ∀ (n a : Nat), a ≤ j → j < a + n →
      (∀ k, a ≤ k → k < j → indAt I k = indAt I i → seqAt S k = seqAt S i) →
      ctorInner S I i (List.range' a n) (opCount (seqAt S i)) = none := by
  intro n
  induction n with
  | zero => intro a h1 h2; omega
  | succ n ih =>
    intro a h1 h2 hk
    rw [List.range'_succ]
    simp only [ctorInner]
    have key : ∀ b, seqAt S b = seqAt S i →
        (opCount (seqAt S i) + opCount (seqAt S b) > 1 ∨
          opCount (seqAt S i) + opCount (seqAt S b) < -1) := by
      intro b hb
      rw [hb]
      rcases opCount_cases (seqAt S i) with h | h <;> omega
    by_cases haj : a = j
    · subst haj
      rw [if_pos hI, if_pos (key a hS.symm)]
    · by_cases hia : indAt I i = indAt I a
      · rw [if_pos hia, if_pos (key a (hk a (le_refl a) (by omega) hia.symm))]
      · rw [if_neg hia]
        exact ih (a + 1) (by omega) (by omega) (fun k h3 h4 => hk k (by omega) h4)

theorem ctorOuter_false_iff (N : Nat) (S : List Bool) (I : List Nat) (is : List Nat) :
    ctorOuter N S I is = false ↔
      ∃ i ∈ is, ctorInner S I i (List.range' (i + 1) (N - (i + 1))) (opCount (seqAt S i)) = none := by
  induction is with
  | nil => simp [ctorOuter]
  | cons i is ih =>
    simp only [ctorOuter, List.mem_cons, exists_eq_or_imp]
    cases h : ctorInner S I i (List.range' (i + 1) (N - (i + 1))) (opCount (seqAt S i)) with
    | none => simp
    | some c => simp [ih]

/-- The loops of the constructor throw exactly on the vanishing condition. -/
theorem ctorOuter_false_iff_vanishes (N : Nat) (S : List Bool) (I : List Nat) :
    ctorOuter N S I (List.range N) = false ↔ Vanishes N S I := by
  rw [ctorOuter_false_iff]
  constructor
  · rintro ⟨i, hi, h⟩
    rw [List.mem_range] at hi
    obtain ⟨p, j, h1, h2, h3⟩ :=
      ctorInner_none_imp S I i (N - (i + 1)) (i + 1) i (opCount (seqAt S i)) (Or.inr rfl) rfl
        (by omega) (by intro k h1 h2; omega) h
    obtain ⟨h3, h4, h5⟩ := h3
    exact ⟨j, by omega, p, h1, h3, h4, fun k hk1 hk2 => h5 k hk2 hk1⟩
  · rintro ⟨j, hj, i, hij, hI, hS, hk⟩
    refine ⟨i, List.mem_range.2 (by omega), ?_⟩
    exact ctorInner_none_of S I i j hI hS (N - (i + 1)) (i + 1) (by omega) (by omega)
      (fun k h1 h2 => hk k h2 (by omega))

/-- What the constructor returns, case by case. -/
theorem Term.new_eq (N : Nat) (S : List Bool) (I : List Nat) (V : Int) :
    Term.new N S I V =
      if S.length ≠ N ∨ I.length ≠ N then .error .exWrongLabel
      else if ctorOuter N S I (List.range N) = false then .error .exWrongOpSequence
      else .ok ⟨N, S, I, V⟩ := by
  unfold Term.new
  cases ctorOuter N S I (List.range N) <;> simp

/-- C1: the constructor fails with `exWrongLabel` exactly when `Sequence` or `Indices` has a
length other than `N`; otherwise it fails with `exWrongOpSequence` exactly when some mode index
carries two operators of the same type with no operator of the opposite type on that mode between
them; otherwise it succeeds and stores `N`, `Sequence`, `Indices` and `Value` unchanged. -/
theorem Term.new_spec (N : Nat) (S : List Bool) (I : List Nat) (V : Int) :
    (Term.new N S I V = .error .exWrongLabel ↔ (S.length ≠ N ∨ I.length ≠ N)) ∧
    (Term.new N S I V = .error .exWrongOpSequence ↔
      (¬ (S.length ≠ N ∨ I.length ≠ N) ∧ Vanishes N S I)) ∧
    (Term.new N S I V = .ok ⟨N, S, I, V⟩ ↔
      (¬ (S.length ≠ N ∨ I.length ≠ N) ∧ ¬ Vanishes N S I)) ∧
    (∀ t, Term.new N S I V = .ok t → t = ⟨N, S, I, V⟩) := by
  rw [Term.new_eq, ← ctorOuter_false_iff_vanishes]
  by_cases h1 : S.length ≠ N ∨ I.length ≠ N
  · simp [h1]
  · by_cases h2 : ctorOuter N S I (List.range N) = false
    · simp [h1, h2]
    · simp only [h1, h2, if_false]
      refine ⟨by simp, by simp, by simp, ?_⟩
      intro t ht
      injection ht with ht
      exact ht.symm

theorem runningStateFrom_succ (t : Term) (bra : List Bool) (n i : Nat) (h : i < n) :
    runningStateFrom t bra (n + 1) i =
      runningStateFrom t (bra.set (indAt t.Indices n) (seqAt t.OperatorSequence n)) n i := by
  unfold runningStateFrom
  have h1 : n + 1 - (i + 1) = (n - (i + 1)) + 1 := by omega
  have h2 : i + 1 + (n - (i + 1)) = n := by omega
  rw [h1, List.range'_concat, List.reverse_append]
  simp [h2]

theorem runningStateFrom_self (t : Term) (bra : List Bool) (n : Nat) :
    runningStateFrom t bra (n + 1) n = bra := by
  simp [runningStateFrom]

/-- The loop of `actRight` ends in the sentinel exactly when some operator is forbidden. -/
theorem actRightLoop_error_iff (t : Term) (ket : List Bool) (p : Nat) :
    ∀ (n : Nat) (bra : List Bool) (sign : Int),
      actRightLoop t ket p (List.range n).reverse bra sign = (.ERROR_FOCK_STATE, 0) ↔
        ∃ i, i < n ∧ seqAt t.OperatorSequence i =
          bitAt (runningStateFrom t bra n i) (indAt t.Indices i) := by
  intro n
  induction n with
  | zero => intro bra sign; simp [actRightLoop]
  | succ n ih =>
    intro bra sign
    rw [List.range_succ, List.reverse_append, List.reverse_singleton, List.singleton_append]
    simp only [actRightLoop]
    by_cases h : seqAt t.OperatorSequence n = bitAt bra (indAt t.Indices n)
    · rw [if_pos h]
      simp only [true_iff]
      exact ⟨n, by omega, by rw [runningStateFrom_self]; exact h⟩
    · rw [if_neg h, ih]
      constructor
      · rintro ⟨i, hi, h1⟩
        exact ⟨i, by omega, by rw [runningStateFrom_succ t bra n i hi]; exact h1⟩
      · rintro ⟨i, hi, h1⟩
        have hne : i ≠ n := by
          rintro rfl
          rw [runningStateFrom_self] at h1
          exact h h1
        have hi' : i < n := by omega
        exact ⟨i, hi', by rw [runningStateFrom_succ t bra n i hi'] at h1; exact h1⟩

/-- C3: `actRight` returns the sentinel state with coefficient zero if and only if, applying
the operators from the rightmost to the leftmost, some operator finds the bit of the running state
at its mode equal to its own type; in particular a single creation operator on an occupied mode
and a single annihilation operator on an empty mode give the sentinel and zero. -/
theorem Term.actRight_forbidden_iff (t : Term) (ket : List Bool) :
    (t.actRight ket = (.ERROR_FOCK_STATE, 0) ↔
      ∃ i, i < t.N ∧
        seqAt t.OperatorSequence i = bitAt (runningState t ket i) (indAt t.Indices i)) ∧
    (∀ (m : Nat) (v : Int) (ket1 : List Bool), bitAt ket1 m = true →
      Term.actRight ⟨1, [true], [m], v⟩ ket1 = (.ERROR_FOCK_STATE, 0)) ∧
    (∀ (m : Nat) (v : Int) (ket1 : List Bool), bitAt ket1 m = false →
      Term.actRight ⟨1, [false], [m], v⟩ ket1 = (.ERROR_FOCK_STATE, 0)) := by
  refine ⟨actRightLoop_error_iff t ket 0 t.N ket 1, ?_, ?_⟩
  · intro m v ket1 h
    simp [Term.actRight, actRightLoop, seqAt, indAt, h]
  · intro m v ket1 h
    simp [Term.actRight, actRightLoop, seqAt, indAt, h]

theorem Term.actRight_forbidden_iff_witness :
    Term.actRight ⟨2, [true, false], [0, 1], 1⟩ [true, true] = (.ERROR_FOCK_STATE, 0) ∧
    Term.actRight ⟨2, [true, false], [0, 1], 1⟩ [false, true] ≠ (.ERROR_FOCK_STATE, 0) := by
  constructor
  · exact (Term.actRight_forbidden_iff ⟨2, [true, false], [0, 1], 1⟩ [true, true]).1.2
      ⟨0, by decide, by decide⟩
  · intro h
    have := (Term.actRight_forbidden_iff ⟨2, [true, false], [0, 1], 1⟩ [false, true]).1.1 h
    revert this
    decide

/-- C4 (evaluation at the failing input): on the ket with only mode 1 occupied the term
`c†_4 c†_2 c†_0` with coefficient 1 yields coefficient `+1`, whereas the exponent of the
specification is 1 (mode 1 lies between the modes 0 and 2, mode 3 between 2 and 4 is empty) and
gives `-1`.  The example of the claim, `c†_0 c_1` on the ket with only mode 1 occupied, does
yield the state with only mode 0 occupied and coefficient 1. -/
theorem Term.actRight_sign_eval :
    ValidTerm ⟨3, [true, true, true], [4, 2, 0], 1⟩ ∧
    Term.actRight ⟨3, [true, true, true], [4, 2, 0], 1⟩ [false, true, false, false, false]
      = (.state [true, true, true, false, true], 1) ∧
    specSignExponent ⟨3, [true, true, true], [4, 2, 0], 1⟩ [false, true, false, false, false]
      = 1 ∧
    (Term.actRight ⟨3, [true, true, true], [4, 2, 0], 1⟩ [false, true, false, false, false]).2
      ≠ (1 : Int) * (-1) ^
        specSignExponent ⟨3, [true, true, true], [4, 2, 0], 1⟩
          [false, true, false, false, false] ∧
    Term.actRight ⟨2, [true, false], [0, 1], 1⟩ [false, true] = (.state [true, false], 1) := by
  decide

theorem reduceInner_eq (add : Int → Int → Int) (rest : List Term) : ∀ t1 : Term,
    reduceInner add t1 rest =
      ({ t1 with Value :=
            ((rest.filter fun u => decide (u.key = t1.key)).map Term.Value).foldl add t1.Value },
        rest.filter fun u => ! decide (u.key = t1.key)) := by
  induction rest with
  | nil => intro t1; simp [reduceInner]
  | cons t2 rest ih =>
    intro t1
    simp only [reduceInner]
    by_cases h : t2.OperatorSequence = t1.OperatorSequence ∧ t2.Indices = t1.Indices
    · have hk : t2.key = t1.key := by simp [Term.key, h.1, h.2]
      have e1 : ({ t1 with Value := add t1.Value t2.Value } : Term).key = t1.key := rfl
      rw [if_pos h, ih, e1]
      simp [List.filter_cons, hk]
    · have hk : ¬ t2.key = t1.key := by
        intro hk
        simp only [Term.key, Prod.mk.injEq] at hk
        exact h hk
      rw [if_neg h, ih]
      simp [hk]

theorem firstOccurrences_congr (l : List Term) :
    ∀ s1 s2 : List (List Bool × List Nat), (∀ a, a ∈ s1 ↔ a ∈ s2) →
      firstOccurrences s1 l = firstOccurrences s2 l := by
  induction l with
  | nil => intro s1 s2 _; rfl
  | cons t l ih =>
    intro s1 s2 h
    simp only [firstOccurrences]
    by_cases hm : t.key ∈ s1
    · rw [if_pos hm, if_pos ((h _).1 hm)]
      exact ih s1 s2 h
    · rw [if_neg hm, if_neg (fun h' => hm ((h _).2 h'))]
      congr 1
      apply ih
      intro a
      simp [h a]

theorem firstOccurrences_filter (k : List Bool × List Nat) (l : List Term) :
    ∀ seen, firstOccurrences seen (l.filter fun u => ! decide (u.key = k)) =
      firstOccurrences (k :: seen) l := by
  induction l with
  | nil => intro seen; rfl
  | cons t l ih =>
    intro seen
    by_cases hk : t.key = k
    · simp only [List.filter_cons, hk, decide_True, Bool.not_true, firstOccurrences,
        List.mem_cons, true_or, if_true]
      simpa using ih seen
    · simp only [List.filter_cons, hk, decide_False, Bool.not_false, firstOccurrences,
        List.mem_cons, false_or, if_true]
      by_cases hm : t.key ∈ seen
      · rw [if_pos hm, if_pos hm]; exact ih seen
      · rw [if_neg hm, if_neg hm, ih]
        congr 1
        apply firstOccurrences_congr
        intro a
        simp only [List.mem_cons]
        tauto

theorem mem_firstOccurrences (l : List Term) :
    ∀ seen u, u ∈ firstOccurrences seen l → u ∈ l ∧ u.key ∉ seen := by
  induction l with
  | nil => intro seen u h; simp [firstOccurrences] at h
  | cons t l ih =>
    intro seen u h
    simp only [firstOccurrences] at h
    by_cases hm : t.key ∈ seen
    · rw [if_pos hm] at h
      exact ⟨List.mem_cons_of_mem _ (ih _ _ h).1, (ih _ _ h).2⟩
    · rw [if_neg hm] at h
      rcases List.mem_cons.1 h with h | h
      · subst h; exact ⟨List.mem_cons_self _ _, hm⟩
      · exact ⟨List.mem_cons_of_mem _ (ih _ _ h).1,
          fun h' => (ih _ _ h).2 (List.mem_cons_of_mem _ h')⟩

theorem coefficientSum_filter (add : Int → Int → Int) (t1 : Term) (rest : List Term) (u : Term)
    (hu : u.key ≠ t1.key) :
    coefficientSum add (t1 :: rest) u =
      coefficientSum add (rest.filter fun x => ! decide (x.key = t1.key)) u := by
  unfold coefficientSum
  have h1 : ¬ t1.key = u.key := fun h => hu h.symm
  rw [List.filter_cons, if_neg (by simpa using h1), List.filter_filter]
  congr 2
  apply List.filter_congr
  intro x _
  by_cases hx : x.key = u.key
  · simp [hx, hu]
  · simp [hx]

/-- The loops of `reduce` compute the reduction of the specification. -/
theorem reduceOuter_eq_specReduce (add : Int → Int → Int) :
    ∀ (n : Nat) (l : List Term), l.length ≤ n → reduceOuter add n l = specReduce add l := by
  intro n
  induction n with
  | zero =>
    intro l hl
    have : l = [] := List.length_eq_zero.1 (by omega)
    subst this
    rfl
  | succ n ih =>
    intro l hl
    cases l with
    | nil => rfl
    | cons t1 rest =>
      simp only [reduceOuter, reduceInner_eq]
      rw [ih _ (le_trans (List.length_filter_le _ _) (by simpa using hl))]
      unfold specReduce
      simp only [firstOccurrences, List.not_mem_nil, if_false, List.map_cons]
      congr 1
      · simp [coefficientSum, sumInOrder]
      · rw [firstOccurrences_filter]
        apply List.map_congr_left
        intro u hu
        have hne : u.key ≠ t1.key := by
          have := (mem_firstOccurrences _ _ _ hu).2
          simpa using this
        rw [coefficientSum_filter add t1 rest u hne]

theorem firstOccurrences_pairwise (l : List Term) :
    ∀ seen, (firstOccurrences seen l).Pairwise fun a b => a.key ≠ b.key := by
  induction l with
  | nil => intro seen; simp [firstOccurrences]
  | cons t l ih =>
    intro seen
    simp only [firstOccurrences]
    by_cases hm : t.key ∈ seen
    · rw [if_pos hm]; exact ih seen
    · rw [if_neg hm, List.pairwise_cons]
      refine ⟨?_, ih _⟩
      intro u hu h
      exact (mem_firstOccurrences _ _ _ hu).2 (by simp [h])

theorem firstOccurrences_of_pairwise (l : List Term) :
    ∀ seen, (∀ u ∈ l, u.key ∉ seen) → l.Pairwise (fun a b => a.key ≠ b.key) →
      firstOccurrences seen l = l := by
  induction l with
  | nil => intro seen _ _; rfl
  | cons t l ih =>
    intro seen h1 h2
    rw [List.pairwise_cons] at h2
    simp only [firstOccurrences]
    rw [if_neg (h1 t (List.mem_cons_self _ _)), ih _ _ h2.2]
    intro u hu
    simp only [List.mem_cons, not_or]
    exact ⟨fun h => h2.1 u hu h.symm, h1 u (List.mem_cons_of_mem _ hu)⟩

theorem coefficientSum_of_pairwise (add : Int → Int → Int) (l : List Term)
    (h : l.Pairwise fun a b => a.key ≠ b.key) :
    ∀ u ∈ l, coefficientSum add l u = u.Value := by
  induction l with
  | nil => intro u hu; simp at hu
  | cons t l ih =>
    intro u hu
    rw [List.pairwise_cons] at h
    unfold coefficientSum at ih ⊢
    rcases List.mem_cons.1 hu with rfl | hu
    · have : (l.filter fun x => decide (x.key = u.key)) = [] := by
        rw [List.filter_eq_nil_iff]
        intro x hx
        simpa using fun h' => h.1 x hx h'.symm
      simp [List.filter_cons, this, sumInOrder]
    · have hne : ¬ t.key = u.key := h.1 u hu
      rw [List.filter_cons, if_neg (by simpa using hne)]
      exact ih h.2 u hu

theorem specReduce_of_pairwise (add : Int → Int → Int) (l : List Term)
    (h : l.Pairwise fun a b => a.key ≠ b.key) : specReduce add l = l := by
  unfold specReduce
  rw [firstOccurrences_of_pairwise l [] (by simp) h]
  conv_rhs => rw [← List.map_id l]
  apply List.map_congr_left
  intro u hu
  rw [coefficientSum_of_pairwise add l h u hu]
  rfl

theorem specReduce_pairwise (add : Int → Int → Int) (l : List Term) :
    (specReduce add l).Pairwise fun a b => a.key ≠ b.key := by
  unfold specReduce
  rw [List.pairwise_map]
  exact firstOccurrences_pairwise l []

/-- C8: after `reduce` no two remaining terms have identical sequence and indices, the
remaining terms are the first occurrences of their sequence and indices in their original
order, each with the sum of the coefficients of all input terms of that sequence and indices,
added from left to right with the addition of the coefficient type, whatever that addition is,
and a second `reduce` changes nothing. -/
theorem Term.reduce_spec (add : Int → Int → Int) (Terms : List Term) :
    ((Term.reduce add Terms).Pairwise fun a b =>
      ¬ (a.OperatorSequence = b.OperatorSequence ∧ a.Indices = b.Indices)) ∧
    Term.reduce add Terms = specReduce add Terms ∧
    Term.reduce add (Term.reduce add Terms) = Term.reduce add Terms := by
  have h1 : Term.reduce add Terms = specReduce add Terms :=
    reduceOuter_eq_specReduce add _ _ (le_refl _)
  have h2 := specReduce_pairwise add Terms
  refine ⟨?_, h1, ?_⟩
  · rw [h1]
    refine h2.imp ?_
    intro a b hab h
    exact hab (by simp [Term.key, h.1, h.2])
  · rw [h1]
    show reduceOuter add _ _ = _
    rw [reduceOuter_eq_specReduce add _ _ (le_refl _)]
    exact specReduce_of_pairwise add _ h2

theorem concat_seq (s1 s2 : List Bool) (n m tot : Nat) (h1 : s1.length = n)
    (h2 : s2.length = m) (ht : tot = n + m) :
    ((List.range tot).map fun i => if i < n then seqAt s1 i else seqAt s2 (i - n))
      = s1 ++ s2 := by
  subst ht
  apply List.ext_getElem
  · simp [h1, h2]
  · intro i hi1 hi2
    simp only [List.length_map, List.length_range] at hi1
    simp only [List.getElem_map, List.getElem_range]
    by_cases h : i < n
    · rw [if_pos h, List.getElem_append_left (by omega)]
      simp [seqAt, List.getD_eq_getElem?_getD, List.getElem?_eq_getElem (h1 ▸ h)]
    · rw [if_neg h, List.getElem_append_right (by omega)]
      have : i - n < s2.length := by omega
      simp [seqAt, List.getD_eq_getElem?_getD, List.getElem?_eq_getElem this, h1]

theorem concat_ind (s1 s2 : List Nat) (n m tot : Nat) (h1 : s1.length = n)
    (h2 : s2.length = m) (ht : tot = n + m) :
    ((List.range tot).map fun i => if i < n then indAt s1 i else indAt s2 (i - n))
      = s1 ++ s2 := by
  subst ht
  apply List.ext_getElem
  · simp [h1, h2]
  · intro i hi1 hi2
    simp only [List.length_map, List.length_range] at hi1
    simp only [List.getElem_map, List.getElem_range]
    by_cases h : i < n
    · rw [if_pos h, List.getElem_append_left (by omega)]
      simp [indAt, List.getD_eq_getElem?_getD, List.getElem?_eq_getElem (h1 ▸ h)]
    · rw [if_neg h, List.getElem_append_right (by omega)]
      have : i - n < s2.length := by omega
      simp [indAt, List.getD_eq_getElem?_getD, List.getElem?_eq_getElem this, h1]

/-- One half of `getCommutator` on vectors of the right length: the term is appended unless it
vanishes. -/
theorem tryPush_new (out : List Term) (N : Nat) (S : List Bool) (I : List Nat) (v : Int)
    (hS : S.length = N) (hI : I.length = N) :
    tryPush out (Term.new N S I v) =
      .ok (out ++ if Vanishes N S I then [] else [⟨N, S, I, v⟩]) := by
  rw [Term.new_eq]
  have h1 : ¬ (S.length ≠ N ∨ I.length ≠ N) := by simp [hS, hI]
  rw [if_neg h1]
  by_cases h2 : Vanishes N S I
  · rw [if_pos ((ctorOuter_false_iff_vanishes N S I).2 h2), if_pos h2]
    simp [tryPush]
  · rw [if_neg (fun h => h2 ((ctorOuter_false_iff_vanishes N S I).1 h)), if_neg h2]
    simp [tryPush]

/-- C6: `getCommutator` never fails and returns, in this order, the concatenation of the
operators of `A` and of `B` as one term of length `N+M` with the coefficient of `A` when it
satisfies the construction invariant, then the concatenation of the operators of `B` and of `A`
with the negated coefficient when that satisfies the invariant; a concatenation that violates
the invariant is omitted, so the list has at most two terms. -/
theorem Term.getCommutator_spec (A B : Term) (hA : WellFormed A) (hB : WellFormed B) :
    A.getCommutator B = .ok (
      (if Vanishes (A.N + B.N) (A.OperatorSequence ++ B.OperatorSequence)
          (A.Indices ++ B.Indices) then []
        else [⟨A.N + B.N, A.OperatorSequence ++ B.OperatorSequence, A.Indices ++ B.Indices,
          A.Value⟩]) ++
      (if Vanishes (A.N + B.N) (B.OperatorSequence ++ A.OperatorSequence)
          (B.Indices ++ A.Indices) then []
        else [⟨A.N + B.N, B.OperatorSequence ++ A.OperatorSequence, B.Indices ++ A.Indices,
          - A.Value⟩])) ∧
    ∀ l, A.getCommutator B = .ok l → l.length ≤ 2 := by
  have key : A.getCommutator B = .ok (
      (if Vanishes (A.N + B.N) (A.OperatorSequence ++ B.OperatorSequence)
          (A.Indices ++ B.Indices) then []
        else [⟨A.N + B.N, A.OperatorSequence ++ B.OperatorSequence, A.Indices ++ B.Indices,
          A.Value⟩]) ++
      (if Vanishes (A.N + B.N) (B.OperatorSequence ++ A.OperatorSequence)
          (B.Indices ++ A.Indices) then []
        else [⟨A.N + B.N, B.OperatorSequence ++ A.OperatorSequence, B.Indices ++ A.Indices,
          - A.Value⟩])) := by
    unfold Term.getCommutator
    simp only []
    rw [concat_seq _ _ _ _ _ hA.1 hB.1 rfl, concat_ind _ _ _ _ _ hA.2 hB.2 rfl,
      tryPush_new [] _ _ _ _ (by simp [hA.1, hB.1]) (by simp [hA.2, hB.2])]
    simp only [List.nil_append]
    rw [concat_seq _ _ _ _ _ hB.1 hA.1 (Nat.add_comm _ _),
      concat_ind _ _ _ _ _ hB.2 hA.2 (Nat.add_comm _ _),
      tryPush_new _ _ _ _ _ (by simp [hA.1, hB.1, Nat.add_comm])
        (by simp [hA.2, hB.2, Nat.add_comm])]
  refine ⟨key, ?_⟩
  intro l hl
  rw [key] at hl
  injection hl with hl
  subst hl
  split_ifs <;> simp

theorem Term.getCommutator_spec_witness :
    Term.getCommutator ⟨1, [true], [0], 1⟩ ⟨1, [true], [0], 1⟩ = .ok [] ∧
    Term.getCommutator ⟨1, [true], [0], 1⟩ ⟨1, [false], [0], 1⟩
      = .ok [⟨2, [true, false], [0, 0], 1⟩, ⟨2, [false, true], [0, 0], -1⟩] := by
  constructor
  · have h := (Term.getCommutator_spec ⟨1, [true], [0], 1⟩ ⟨1, [true], [0], 1⟩
      (by decide) (by decide)).1
    rw [h]
    decide
  · have h := (Term.getCommutator_spec ⟨1, [true], [0], 1⟩ ⟨1, [false], [0], 1⟩
      (by decide) (by decide)).1
    rw [h]
    decide

theorem foldl_and_eq_true {α : Type} (p : α → Bool) (l : List α) :
    ∀ b : Bool, l.foldl (fun o x => o && p x) b = true ↔ (b = true ∧ ∀ x ∈ l, p x = true) := by
  induction l with
  | nil => intro b; simp
  | cons x l ih =>
    intro b
    rw [List.foldl_cons, ih]
    simp only [Bool.and_eq_true, List.mem_cons, forall_eq_or_imp]
    tauto

/-- What `isExactlyEqual` compares: `N`, the coefficient and the first `N` entries of both
vectors. -/
theorem Term.isExactlyEqual_iff (x y : Term) :
    x.isExactlyEqual y = true ↔
      (x.N = y.N ∧ x.Value = y.Value ∧ ∀ i, i < x.N →
        seqAt x.OperatorSequence i = seqAt y.OperatorSequence i ∧
          indAt x.Indices i = indAt y.Indices i) := by
  unfold Term.isExactlyEqual
  by_cases h : x.N = y.N ∧ x.Value = y.Value
  · have e : (fun (o : Bool) (i : Nat) =>
          (o && decide (seqAt x.OperatorSequence i = seqAt y.OperatorSequence i) &&
            decide (indAt x.Indices i = indAt y.Indices i))) =
        (fun (o : Bool) (i : Nat) =>
          (o && (decide (seqAt x.OperatorSequence i = seqAt y.OperatorSequence i) &&
            decide (indAt x.Indices i = indAt y.Indices i)))) := by
      funext o i; rw [Bool.and_assoc]
    simp only [h, and_self, decide_True, not_true_eq_false, if_false, true_and]
    rw [e, foldl_and_eq_true]
    simp
  · simp only [h, decide_False, Bool.false_eq_true, not_false_eq_true, if_true, false_iff]
    intro h'
    exact h ⟨h'.1, h'.2.1⟩

/-- The loop of `actRight` reads the term only at the positions it visits. -/
theorem actRightLoop_congr (x y : Term) (ket : List Bool) (p : Nat) (hv : x.Value = y.Value) :
    ∀ (is : List Nat) (bra : List Bool) (sign : Int),
      (∀ i ∈ is, seqAt x.OperatorSequence i = seqAt y.OperatorSequence i ∧
          indAt x.Indices i = indAt y.Indices i) →
      actRightLoop x ket p is bra sign = actRightLoop y ket p is bra sign := by
  intro is
  induction is with
  | nil => intro bra sign _; simp [actRightLoop, hv]
  | cons i is ih =>
    intro bra sign h
    have hi := h i (List.mem_cons_self _ _)
    simp only [actRightLoop, hi.1, hi.2]
    split
    · rfl
    · exact ih _ _ (fun k hk => h k (List.mem_cons_of_mem _ hk))

/-- Terms that are exactly equal have the same matrix elements. -/
theorem Term.getMatrixElement_congr (x y : Term) (h : x.isExactlyEqual y = true)
    (bra : FockState) (ket : List Bool) :
    x.getMatrixElement bra ket = y.getMatrixElement bra ket := by
  rw [Term.isExactlyEqual_iff] at h
  have e : x.actRight ket = y.actRight ket := by
    unfold Term.actRight
    rw [← h.1]
    apply actRightLoop_congr x y ket 0 h.2.1
    intro i hi
    simp only [List.mem_reverse, List.mem_range] at hi
    exact h.2.2 i hi
  unfold Term.getMatrixElement
  rw [e]

/-- A larger budget does not change what the loop of `makeNormalOrder` returns. -/
theorem normalOrderLoop_mono (f g : Term → Except TermError (Term × List Term))
    (hfg : ∀ t r, f t = .ok r → g t = .ok r) :
    ∀ (n : Nat) (before l r : List Term), normalOrderLoop f n before l = .ok r →
      normalOrderLoop g (n + 1) before l = .ok r := by
  intro n
  induction n with
  | zero =>
    intro before l r h
    cases l with
    | nil => simpa [normalOrderLoop] using h
    | cons cur after => simp [normalOrderLoop] at h
  | succ n ih =>
    intro before l r h
    cases l with
    | nil => simpa [normalOrderLoop] using h
    | cons cur after =>
      simp only [normalOrderLoop] at h ⊢
      cases hf : f cur with
      | error e => rw [hf] at h; simp at h
      | ok p =>
        obtain ⟨cur1, out2⟩ := p
        rw [hf] at h
        rw [hfg cur _ hf]
        simp only [] at h ⊢
        cases hl : after.getLast? with
        | none => rw [hl] at h; simpa using h
        | some last =>
          rw [hl] at h
          simp only [] at h ⊢
          exact ih _ _ _ h

/-- A larger budget does not change what `makeNormalOrder` returns. -/
theorem makeNormalOrderFuel_succ :
    ∀ (n : Nat) (t : Term) (r : Term × List Term), makeNormalOrderFuel n t = .ok r →
      makeNormalOrderFuel (n + 1) t = .ok r := by
  intro n
  induction n with
  | zero => intro t r h; simp [makeNormalOrderFuel] at h
  | succ n ih =>
    intro t r h
    rw [makeNormalOrderFuel] at h ⊢
    cases h1 : t.rearrange (normalOrderedSequence t) with
    | error e => rw [h1] at h; simp at h
    | ok p =>
      obtain ⟨t1, out⟩ := p
      rw [h1] at h
      simp only [] at h ⊢
      cases h2 : t1.reorder true with
      | error e => rw [h2] at h; simp at h
      | ok t2 =>
        rw [h2] at h
        simp only [] at h ⊢
        cases h3 : normalOrderLoop (makeNormalOrderFuel n) n [] out with
        | error e => rw [h3] at h; simp at h
        | ok out1 =>
          rw [h3] at h
          rw [normalOrderLoop_mono _ _ ih n [] out out1 h3]
          exact h

theorem makeNormalOrderFuel_add (n k : Nat) (t : Term) (r : Term × List Term)
    (h : makeNormalOrderFuel n t = .ok r) : makeNormalOrderFuel (k + n) t = .ok r := by
  induction k with
  | zero => simpa using h
  | succ k ih =>
    have := makeNormalOrderFuel_succ _ _ _ ih
    rwa [show k + 1 + n = k + n + 1 by omega]

/-- C2 (evaluation at the failing input): the valid term `c_1 c_2 c†_0 c_0 c†_1 c†_0` has
three creation and three annihilation operators and `makeNormalOrder` completes on it, yet the
second auxiliary term it returns, `c†_1 c_2 c_0 c_1`, is not in normal order: the mode indices of
its annihilation operators are 2, 0, 1. -/
theorem makeNormalOrder_aux_not_normal :
    ValidTerm ⟨6, [false, false, true, false, true, true], [1, 2, 0, 0, 1, 0], 1⟩ ∧
    Balanced ⟨6, [false, false, true, false, true, true], [1, 2, 0, 0, 1, 0], 1⟩ ∧
    (∀ k, makeNormalOrderFuel (k + 3)
        ⟨6, [false, false, true, false, true, true], [1, 2, 0, 0, 1, 0], 1⟩
      = .ok (⟨6, [true, true, true, false, false, false], [0, 0, 1, 0, 1, 2], 1⟩,
          [⟨4, [true, true, false, false], [0, 1, 1, 2], -1⟩,
           ⟨4, [true, false, false, false], [1, 2, 0, 1], -1⟩])) ∧
    ¬ NormalOrdered ⟨4, [true, false, false, false], [1, 2, 0, 1], -1⟩ :=
  ⟨by decide, by decide, fun k => makeNormalOrderFuel_add 3 k _ _ (by decide), by decide⟩

/-- C7 (evaluation at the failing input): for the valid terms `A = c†_0 c_1` and
`B = c†_2 c_3` the commutator list has two terms which are not equal under `operator==`, and
`commutes` returns true all the same, because it compares the first term with itself. -/
theorem Term.commutes_compares_first_with_itself :
    ValidTerm ⟨2, [true, false], [0, 1], 1⟩ ∧ ValidTerm ⟨2, [true, false], [2, 3], 1⟩ ∧
    Term.getCommutator ⟨2, [true, false], [0, 1], 1⟩ ⟨2, [true, false], [2, 3], 1⟩
      = .ok [⟨4, [true, false, true, false], [0, 1, 2, 3], 1⟩,
             ⟨4, [true, false, true, false], [2, 3, 0, 1], -1⟩] ∧
    (∀ add fuel, Term.commutes add fuel ⟨2, [true, false], [0, 1], 1⟩
        ⟨2, [true, false], [2, 3], 1⟩ = .ok true) ∧
    (∀ add k, Term.operatorEq add (k + 1) ⟨4, [true, false, true, false], [0, 1, 2, 3], 1⟩
        ⟨4, [true, false, true, false], [2, 3, 0, 1], -1⟩ = .ok false) := by
  refine ⟨by decide, by decide, by decide, ?_, ?_⟩
  · intro add fuel
    unfold Term.commutes
    rw [show Term.getCommutator ⟨2, [true, false], [0, 1], 1⟩ ⟨2, [true, false], [2, 3], 1⟩
      = .ok [⟨4, [true, false, true, false], [0, 1, 2, 3], 1⟩,
             ⟨4, [true, false, true, false], [2, 3, 0, 1], -1⟩] by decide]
    have h : Term.isExactlyEqual ⟨4, [true, false, true, false], [0, 1, 2, 3], 1⟩
        ⟨4, [true, false, true, false], [0, 1, 2, 3], 1⟩ = true := by decide
    simp [Term.operatorEq, h]
  · intro add k
    unfold Term.operatorEq
    rw [if_neg (by decide),
      makeNormalOrderFuel_add 1 k ⟨4, [true, false, true, false], [0, 1, 2, 3], 1⟩
        (⟨4, [true, true, false, false], [0, 2, 1, 3], -1⟩, []) (by decide),
      makeNormalOrderFuel_add 1 k ⟨4, [true, false, true, false], [2, 3, 0, 1], -1⟩
        (⟨4, [true, true, false, false], [0, 2, 1, 3], 1⟩, []) (by decide)]
    have h : Term.isExactlyEqual ⟨4, [true, true, false, false], [0, 2, 1, 3], -1⟩
        ⟨4, [true, true, false, false], [0, 2, 1, 3], 1⟩ = false := by decide
    simp [h]

/-- C9 (evaluation at the failing input): with the threshold 1, `prune` erases the first of two
neighbouring terms of coefficient 0 and steps over the second, which stays in the list; the list
with every term below the threshold deleted holds the third term only. -/
theorem Term.prune_skips_after_erase :
    ValidTerm ⟨2, [true, false], [0, 0], 0⟩ ∧ ValidTerm ⟨2, [true, false], [1, 1], 0⟩ ∧
    ValidTerm ⟨2, [true, false], [2, 2], 5⟩ ∧
    Term.prune [⟨2, [true, false], [0, 0], 0⟩, ⟨2, [true, false], [1, 1], 0⟩,
        ⟨2, [true, false], [2, 2], 5⟩] 1
      = some [⟨2, [true, false], [1, 1], 0⟩, ⟨2, [true, false], [2, 2], 5⟩] ∧
    ([⟨2, [true, false], [0, 0], 0⟩, ⟨2, [true, false], [1, 1], 0⟩,
        ⟨2, [true, false], [2, 2], 5⟩].filter fun t : Term => ! decide (|t.Value| < 1))
      = [⟨2, [true, false], [2, 2], 5⟩] ∧
    Term.prune [⟨2, [true, false], [0, 0], 0⟩, ⟨2, [true, false], [1, 1], 0⟩,
        ⟨2, [true, false], [2, 2], 5⟩] 1
      ≠ some ([⟨2, [true, false], [0, 0], 0⟩, ⟨2, [true, false], [1, 1], 0⟩,
        ⟨2, [true, false], [2, 2], 5⟩].filter fun t : Term => ! decide (|t.Value| < 1)) := by
  decide

/-- C10 (evaluation at the failing input): the valid term
`c†_0 c_1 c_0 c†_1 c_1 c†_2 c†_0 c_0` has four creation and four annihilation operators and
`makeNormalOrder` completes on it; a second `makeNormalOrder` on the second auxiliary term it
returned, `c†_0 c†_0 c†_2 c_0 c_0 c†_1`, fails with `exWrongOpSequence`. -/
theorem makeNormalOrder_second_call_fails :
    ValidTerm ⟨8, [true, false, false, true, false, true, true, false],
      [0, 1, 0, 1, 1, 2, 0, 0], 1⟩ ∧
    Balanced ⟨8, [true, false, false, true, false, true, true, false],
      [0, 1, 0, 1, 1, 2, 0, 0], 1⟩ ∧
    (∀ k, makeNormalOrderFuel (k + 3)
        ⟨8, [true, false, false, true, false, true, true, false], [0, 1, 0, 1, 1, 2, 0, 0], 1⟩
      = .ok (⟨8, [true, true, true, true, false, false, false, false],
            [0, 0, 1, 2, 0, 0, 1, 1], 1⟩,
          [⟨6, [true, true, true, false, false, false], [0, 0, 2, 0, 0, 1], -1⟩,
           ⟨6, [true, true, true, false, false, true], [0, 0, 2, 0, 0, 1], 1⟩])) ∧
    (∀ k, makeNormalOrderFuel (k + 1)
        ⟨6, [true, true, true, false, false, true], [0, 0, 2, 0, 0, 1], 1⟩
      = .error .exWrongOpSequence) := by
  refine ⟨by decide, by decide, fun k => makeNormalOrderFuel_add 3 k _ _ (by decide), ?_⟩
  intro k
  rw [makeNormalOrderFuel,
    show Term.rearrange ⟨6, [true, true, true, false, false, true], [0, 0, 2, 0, 0, 1], 1⟩
      (normalOrderedSequence ⟨6, [true, true, true, false, false, true], [0, 0, 2, 0, 0, 1], 1⟩)
      = .error .exWrongOpSequence by decide]

theorem length_swapAt {α : Type} (d : α) (l : List α) (p : Nat) :
    (swapAt d l p).length = l.length := by
  simp [swapAt]

theorem getElem?_swapAt {α : Type} (d : α) (l : List α) (p i : Nat) (hp : p + 1 < l.length) :
    (swapAt d l p)[i]? = if i = p then l[p + 1]? else if i = p + 1 then l[p]? else l[i]? := by
  unfold swapAt
  have h0 : p < l.length := by omega
  rw [List.getElem?_set, List.getElem?_set, List.length_set]
  by_cases h1 : i = p
  · subst h1
    simp [List.getD_eq_getElem?_getD, List.getElem?_eq_getElem hp, h0]
  · by_cases h2 : i = p + 1
    · subst h2
      simp [List.getD_eq_getElem?_getD, List.getElem?_eq_getElem h0, hp]
    · have h3 : ¬ p + 1 = i := fun h => h2 h.symm
      have h4 : ¬ p = i := fun h => h1 h.symm
      simp [h1, h2, h3, h4]

theorem getD_swapAt {α : Type} (d : α) (l : List α) (p i : Nat) (hp : p + 1 < l.length) :
    (swapAt d l p).getD i d =
      if i = p then l.getD (p + 1) d else if i = p + 1 then l.getD p d else l.getD i d := by
  simp only [List.getD_eq_getElem?_getD, getElem?_swapAt d l p i hp]
  split_ifs <;> rfl

theorem swapAt_swapAt {α : Type} (d : α) (l : List α) (p : Nat) (hp : p + 1 < l.length) :
    swapAt d (swapAt d l p) p = l := by
  apply List.ext_getElem?
  intro i
  rw [getElem?_swapAt d _ p i (by rw [length_swapAt]; exact hp),
    getElem?_swapAt d l p (p + 1) hp, getElem?_swapAt d l p p hp, getElem?_swapAt d l p i hp]
  by_cases h1 : i = p
  · subst h1; simp
  · by_cases h2 : i = p + 1
    · subst h2; simp
    · simp [h1, h2]

theorem swapAt_eq_self {α : Type} (d : α) (l : List α) (p : Nat) (hp : p + 1 < l.length)
    (h : l.getD p d = l.getD (p + 1) d) : swapAt d l p = l := by
  apply List.ext_getElem?
  intro i
  have h0 : p < l.length := by omega
  have h' : l[p]? = l[p + 1]? := by
    simp only [List.getD_eq_getElem?_getD, List.getElem?_eq_getElem hp,
      List.getElem?_eq_getElem h0, Option.getD_some] at h
    rw [List.getElem?_eq_getElem hp, List.getElem?_eq_getElem h0, h]
  rw [getElem?_swapAt d l p i hp]
  by_cases h1 : i = p
  · subst h1; simp [h']
  · by_cases h2 : i = p + 1
    · subst h2; simp [h']
    · simp [h1, h2]

theorem swapAt_append_left {α : Type} (d : α) (A B : List α) (p : Nat) (hp : p + 1 < A.length) :
    swapAt d (A ++ B) p = swapAt d A p ++ B := by
  have h0 : p < A.length := by omega
  have e1 : (A ++ B).getD (p + 1) d = A.getD (p + 1) d := by
    simp only [List.getD_eq_getElem?_getD, List.getElem?_append_left hp]
  have e2 : (A ++ B).getD p d = A.getD p d := by
    simp only [List.getD_eq_getElem?_getD, List.getElem?_append_left h0]
  unfold swapAt
  rw [e1, e2, List.set_append, if_pos h0, List.set_append,
    if_pos (by rw [List.length_set]; exact hp)]

theorem swapAt_append_right {α : Type} (d : α) (A B : List α) (p : Nat) :
    swapAt d (A ++ B) (p + A.length) = A ++ swapAt d B p := by
  have e1 : (A ++ B).getD (p + A.length + 1) d = B.getD (p + 1) d := by
    simp only [List.getD_eq_getElem?_getD]
    rw [List.getElem?_append_right (by omega)]
    congr 2
    omega
  have e2 : (A ++ B).getD (p + A.length) d = B.getD p d := by
    simp only [List.getD_eq_getElem?_getD]
    rw [List.getElem?_append_right (by omega)]
    congr 2
    omega
  have e3 : p + A.length - A.length = p := by omega
  have e4 : p + A.length + 1 - A.length = p + 1 := by omega
  unfold swapAt
  rw [e1, e2, List.set_append, if_neg (by omega), List.set_append, if_neg (by omega), e3, e4]

theorem swapAt_cons_succ {α : Type} (d : α) (a : α) (l : List α) (p : Nat) :
    swapAt d (a :: l) (p + 1) = a :: swapAt d l p := by
  simp [swapAt]

theorem swapAt_zero {α : Type} (d : α) (a b : α) (l : List α) :
    swapAt d (a :: b :: l) 0 = b :: a :: l := by
  simp [swapAt]

theorem getD_removePair {α : Type} (d : α) (l : List α) (p k : Nat) (hp : p + 1 < l.length) :
    (removePair l p).getD k d = if k < p then l.getD k d else l.getD (k + 2) d := by
  unfold removePair
  simp only [List.getD_eq_getElem?_getD, List.getElem?_append, List.length_take,
    List.getElem?_take, List.getElem?_drop]
  have hm : min p l.length = p := by omega
  rw [hm]
  by_cases hk : k < p
  · simp [hk]
  · have e : p + 2 + (k - p) = k + 2 := by omega
    simp [hk, e]

theorem length_removePair {α : Type} (l : List α) (p : Nat) (hp : p + 1 < l.length) :
    (removePair l p).length = l.length - 2 := by
  unfold removePair
  simp only [List.length_append, List.length_take, List.length_drop]
  omega

theorem Term.forcedSwap_eq (t : Term) (pos : Nat) :
    t.forcedSwap pos =
      ⟨t.N, swapAt false t.OperatorSequence pos, swapAt 0 t.Indices pos, t.Value * (-1)⟩ := rfl

/-- C14: for a term whose operators at `pos` and `pos+1` act on different modes,
`elementary_swap(pos)` applied twice returns no auxiliary term either time and restores the
original term exactly. -/
theorem Term.elementary_swap_twice (t : Term) (pos : Nat) (hwf : WellFormed t)
    (hpos : pos + 1 < t.N) (hne : indAt t.Indices pos ≠ indAt t.Indices (pos + 1)) :
    ∃ t1, t.elementary_swap pos false = .ok (t1, []) ∧
      t1.elementary_swap pos false = .ok (t, []) := by
  refine ⟨t.forcedSwap pos, ?_, ?_⟩
  · unfold Term.elementary_swap
    rw [if_pos (Or.inl hne)]
  · have hlen : pos + 1 < t.Indices.length := by rw [hwf.2]; exact hpos
    have hlen' : pos + 1 < t.OperatorSequence.length := by rw [hwf.1]; exact hpos
    have h1 : indAt (t.forcedSwap pos).Indices pos = indAt t.Indices (pos + 1) := by
      rw [Term.forcedSwap_eq]
      simp only [indAt]
      rw [getD_swapAt 0 _ pos pos hlen, if_pos rfl]
    have h2 : indAt (t.forcedSwap pos).Indices (pos + 1) = indAt t.Indices pos := by
      rw [Term.forcedSwap_eq]
      simp only [indAt]
      rw [getD_swapAt 0 _ pos (pos + 1) hlen, if_neg (by omega), if_pos rfl]
    unfold Term.elementary_swap
    rw [if_pos (Or.inl (by rw [h1, h2]; exact fun h => hne h.symm))]
    congr 2
    rw [Term.forcedSwap_eq, Term.forcedSwap_eq]
    simp only [swapAt_swapAt false _ pos hlen', swapAt_swapAt 0 _ pos hlen]
    cases t
    simp

theorem Term.elementary_swap_twice_witness :
    ∃ t1, Term.elementary_swap ⟨2, [true, false], [0, 1], 1⟩ 0 false = .ok (t1, []) ∧
      t1.elementary_swap 0 false = .ok (⟨2, [true, false], [0, 1], 1⟩, []) :=
  Term.elementary_swap_twice ⟨2, [true, false], [0, 1], 1⟩ 0 (by decide) (by decide) (by decide)

/-- Removing two neighbouring operators of one mode from a product that does not vanish leaves
a product that does not vanish. -/
theorem vanishes_of_removePair (N : Nat) (S : List Bool) (I : List Nat) (p : Nat)
    (hS : S.length = N) (hI : I.length = N) (hp : p + 1 < N)
    (heq : indAt I p = indAt I (p + 1))
    (h : Vanishes (N - 2) (removePair S p) (removePair I p)) : Vanishes N S I := by
  have rS : ∀ k, seqAt (removePair S p) k = if k < p then seqAt S k else seqAt S (k + 2) :=
    fun k => getD_removePair false S p k (by omega)
  have rI : ∀ k, indAt (removePair I p) k = if k < p then indAt I k else indAt I (k + 2) :=
    fun k => getD_removePair 0 I p k (by omega)
  obtain ⟨j, hj, i, hij, hI', hS', hk⟩ := h
  by_cases hjp : j < p
  · -- both positions lie in front of the pair
    have hip : i < p := by omega
    rw [rI i, rI j, if_pos hip, if_pos hjp] at hI'
    rw [rS i, rS j, if_pos hip, if_pos hjp] at hS'
    refine ⟨j, by omega, i, hij, hI', hS', ?_⟩
    intro k hk1 hk2 hk3
    have := hk k hk1 hk2
    rw [rI k, rI i, rS k, rS i, if_pos (by omega : k < p), if_pos hip, if_pos (by omega : k < p),
      if_pos hip] at this
    exact this hk3
  · by_cases hip : i < p
    · -- the pair lies between the two positions
      rw [rI i, rI j, if_pos hip, if_neg hjp] at hI'
      rw [rS i, rS j, if_pos hip, if_neg hjp] at hS'
      have hkl : ∀ k, i < k → k < p → indAt I k = indAt I i → seqAt S k = seqAt S i := by
        intro k hk1 hk2 hk3
        have := hk k (by omega) hk1
        rw [rI k, rI i, rS k, rS i, if_pos hk2, if_pos hip, if_pos hk2, if_pos hip] at this
        exact this hk3
      have hkr : ∀ k, p + 2 ≤ k → k < j + 2 → indAt I k = indAt I i →
          seqAt S k = seqAt S i := by
        intro k hk1 hk2 hk3
        have := hk (k - 2) (by omega) (by omega)
        rw [rI (k - 2), rI i, rS (k - 2), rS i, if_neg (by omega), if_pos hip,
          if_neg (by omega), if_pos hip, show k - 2 + 2 = k by omega] at this
        exact this hk3
      by_cases hm : indAt I p = indAt I i
      · by_cases hs : seqAt S p = seqAt S i
        · exact ⟨p, by omega, i, hip, hm.symm, hs.symm, fun k h1 h2 h3 => hkl k h2 h1 h3⟩
        · by_cases hs2 : seqAt S (p + 1) = seqAt S p
          · exact ⟨p + 1, by omega, p, by omega, heq, hs2.symm, fun k h1 h2 => by omega⟩
          · have hs3 : seqAt S (p + 1) = seqAt S i := by
              revert hs hs2
              cases seqAt S (p + 1) <;> cases seqAt S p <;> cases seqAt S i <;> simp
            refine ⟨j + 2, by omega, p + 1, by omega, ?_, ?_, ?_⟩
            · rw [← heq, hm, hI']
            · rw [hs3, hS']
            · intro k h1 h2 h3
              rw [hs3]
              exact hkr k (by omega) h1 (by rw [h3, ← heq, hm])
      · refine ⟨j + 2, by omega, i, by omega, hI', hS', ?_⟩
        intro k h1 h2 h3
        by_cases hk1 : k < p
        · exact hkl k h2 hk1 h3
        · by_cases hk2 : p + 2 ≤ k
          · exact hkr k hk2 h1 h3
          · exfalso
            have : k = p ∨ k = p + 1 := by omega
            rcases this with rfl | rfl
            · exact hm h3
            · exact hm (heq.trans h3)
    · -- both positions lie behind the pair
      rw [rI i, rI j, if_neg hip, if_neg hjp] at hI'
      rw [rS i, rS j, if_neg hip, if_neg hjp] at hS'
      refine ⟨j + 2, by omega, i + 2, by omega, hI', hS', ?_⟩
      intro k hk1 hk2 hk3
      have := hk (k - 2) (by omega) (by omega)
      rw [rI (k - 2), rI i, rS (k - 2), rS i, if_neg (by omega), if_neg hip,
        if_neg (by omega), if_neg hip, show k - 2 + 2 = k by omega] at this
      exact this hk3

theorem getElem?_eq_some_getD {α : Type} (d : α) (l : List α) (k : Nat) (h : k < l.length) :
    l[k]? = some (l.getD k d) := by
  simp [List.getD_eq_getElem?_getD, List.getElem?_eq_getElem h]

/-- The vectors `elementary_swap` builds for the auxiliary term (lines 149-152) are the vectors
of the term with the entries at `pos` and `pos+1` removed. -/
theorem removeLoop_eq {α : Type} (d : α) (l : List α) (N pos : Nat) (hl : l.length = N)
    (hp : pos + 1 < N) :
    ((List.range (N - 2)).map fun i => if i < pos then l.getD i d else l.getD (i + 2) d)
      = removePair l pos := by
  apply List.ext_getElem?
  intro k
  by_cases hk : k < N - 2
  · rw [getElem?_eq_some_getD d (removePair l pos) k
        (by rw [length_removePair l pos (by omega)]; omega),
      getD_removePair d l pos k (by omega)]
    simp [List.getElem?_range hk]
  · rw [List.getElem?_eq_none (by simp; omega),
      List.getElem?_eq_none (by rw [length_removePair l pos (by omega)]; omega)]

/-- A term the constructor accepts has vectors of `N` entries and does not vanish. -/
theorem validTerm_iff (t : Term) :
    ValidTerm t ↔ (WellFormed t ∧ ¬ Vanishes t.N t.OperatorSequence t.Indices) := by
  unfold ValidTerm WellFormed
  rw [Term.new_eq, ← ctorOuter_false_iff_vanishes]
  by_cases h1 : t.OperatorSequence.length ≠ t.N ∨ t.Indices.length ≠ t.N
  · rw [if_pos h1]
    constructor
    · intro h; cases h
    · rintro ⟨⟨h2, h3⟩, _⟩
      rcases h1 with h1 | h1
      · exact absurd h2 h1
      · exact absurd h3 h1
  · rw [if_neg h1]
    have h2 : t.OperatorSequence.length = t.N ∧ t.Indices.length = t.N := by
      constructor
      · by_contra h; exact h1 (Or.inl h)
      · by_contra h; exact h1 (Or.inr h)
    by_cases h3 : ctorOuter t.N t.OperatorSequence t.Indices (List.range t.N) = false
    · rw [if_pos h3]
      constructor
      · intro h; cases h
      · rintro ⟨_, h4⟩; exact absurd h3 h4
    · rw [if_neg h3]
      exact ⟨fun _ => ⟨h2, h3⟩, fun _ => rfl⟩

/-- C13 (amended): for a term whose operators at `pos` and `pos+1` act on the same mode,
`elementary_swap(pos)` without force-ignore returns exactly one auxiliary term, of length `N-2`,
with the entries at `pos` and `pos+1` removed and the original coefficient, and leaves the term
with the entries at `pos` and `pos+1` exchanged, the coefficient negated and every other entry
unchanged, provided the remaining operators satisfy the construction invariant; otherwise it
raises `exWrongOpSequence`.  The remaining operators of a validly constructed term always
satisfy the invariant. -/
theorem Term.elementary_swap_contraction (t : Term) (pos : Nat) (hwf : WellFormed t)
    (hpos : pos + 1 < t.N) (heq : indAt t.Indices pos = indAt t.Indices (pos + 1)) :
    (¬ Vanishes (t.N - 2) (removePair t.OperatorSequence pos) (removePair t.Indices pos) →
      ∃ t1, t.elementary_swap pos false =
          .ok (t1, [⟨t.N - 2, removePair t.OperatorSequence pos, removePair t.Indices pos,
            t.Value⟩]) ∧
        t1.N = t.N ∧ t1.Value = - t.Value ∧
        t1.OperatorSequence.length = t.N ∧ t1.Indices.length = t.N ∧
        (∀ i, seqAt t1.OperatorSequence i =
          if i = pos then seqAt t.OperatorSequence (pos + 1)
          else if i = pos + 1 then seqAt t.OperatorSequence pos
          else seqAt t.OperatorSequence i) ∧
        (∀ i, indAt t1.Indices i =
          if i = pos then indAt t.Indices (pos + 1)
          else if i = pos + 1 then indAt t.Indices pos
          else indAt t.Indices i)) ∧
    (Vanishes (t.N - 2) (removePair t.OperatorSequence pos) (removePair t.Indices pos) →
      t.elementary_swap pos false = .error .exWrongOpSequence) ∧
    (ValidTerm t →
      ¬ Vanishes (t.N - 2) (removePair t.OperatorSequence pos) (removePair t.Indices pos)) := by
  have hlS : pos + 1 < t.OperatorSequence.length := by rw [hwf.1]; exact hpos
  have hlI : pos + 1 < t.Indices.length := by rw [hwf.2]; exact hpos
  have hcode : t.elementary_swap pos false =
      match Term.new (t.N - 2) (removePair t.OperatorSequence pos) (removePair t.Indices pos)
          t.Value with
      | .error e => .error e
      | .ok aux => .ok (t.forcedSwap pos, [aux]) := by
    unfold Term.elementary_swap
    rw [if_neg (by simp [heq])]
    simp only [seqAt, indAt]
    rw [removeLoop_eq false _ t.N pos hwf.1 hpos, removeLoop_eq 0 _ t.N pos hwf.2 hpos]
  have hnew := Term.new_eq (t.N - 2) (removePair t.OperatorSequence pos)
    (removePair t.Indices pos) t.Value
  have hlen : ¬ ((removePair t.OperatorSequence pos).length ≠ t.N - 2 ∨
      (removePair t.Indices pos).length ≠ t.N - 2) := by
    rw [length_removePair _ _ hlS, length_removePair _ _ hlI, hwf.1, hwf.2]
    simp
  rw [if_neg hlen] at hnew
  refine ⟨?_, ?_, ?_⟩
  · intro hv
    rw [if_neg (fun h => hv ((ctorOuter_false_iff_vanishes _ _ _).1 h))] at hnew
    refine ⟨t.forcedSwap pos, ?_, rfl, ?_, ?_, ?_, ?_, ?_⟩
    · rw [hcode, hnew]
    · simp [Term.forcedSwap_eq]
    · rw [Term.forcedSwap_eq]; simp only [length_swapAt]; exact hwf.1
    · rw [Term.forcedSwap_eq]; simp only [length_swapAt]; exact hwf.2
    · intro i
      rw [Term.forcedSwap_eq]
      exact getD_swapAt false _ pos i hlS
    · intro i
      rw [Term.forcedSwap_eq]
      exact getD_swapAt 0 _ pos i hlI
  · intro hv
    rw [if_pos ((ctorOuter_false_iff_vanishes _ _ _).2 hv)] at hnew
    rw [hcode, hnew]
  · intro hvalid hv
    exact ((validTerm_iff t).1 hvalid).2
      (vanishes_of_removePair t.N _ _ pos hwf.1 hwf.2 hpos heq hv)

theorem Term.elementary_swap_contraction_witness :
    ∃ t1, Term.elementary_swap ⟨4, [true, false, true, false], [1, 0, 0, 2], 3⟩ 1 false =
        .ok (t1, [⟨2, [true, false], [1, 2], 3⟩]) ∧ t1.Value = -3 ∧
      seqAt t1.OperatorSequence 1 = true ∧ seqAt t1.OperatorSequence 2 = false := by
  have h := (Term.elementary_swap_contraction ⟨4, [true, false, true, false], [1, 0, 0, 2], 3⟩ 1
    (by decide) (by decide) (by decide)).1 (by decide)
  obtain ⟨t1, h1, _, h3, _, _, h6, _⟩ := h
  exact ⟨t1, h1, h3, h6 1, h6 2⟩

theorem length_compareSwap (I : List Nat) (j : Nat) : (compareSwap I j).length = I.length := by
  unfold compareSwap
  split
  · exact length_swapAt 0 I j
  · rfl

theorem compareSwap_cons_succ (a : Nat) (l : List Nat) (j : Nat) :
    compareSwap (a :: l) (j + 1) = a :: compareSwap l j := by
  unfold compareSwap
  have e1 : indAt (a :: l) (j + 1 + 1) = indAt l (j + 1) := by simp [indAt]
  have e2 : indAt (a :: l) (j + 1) = indAt l j := by simp [indAt]
  rw [e1, e2, swapAt_cons_succ]
  split <;> rfl

theorem compareSwap_zero (a b : Nat) (l : List Nat) :
    compareSwap (a :: b :: l) 0 = if b < a then b :: a :: l else a :: b :: l := by
  unfold compareSwap
  have e1 : indAt (a :: b :: l) (0 + 1) = b := by simp [indAt]
  have e2 : indAt (a :: b :: l) 0 = a := by simp [indAt]
  rw [e1, e2, swapAt_zero]

theorem foldl_compareSwap_cons (a : Nat) :
    ∀ (k s : Nat) (l : List Nat),
      (List.range' (s + 1) k).foldl compareSwap (a :: l) =
        a :: (List.range' s k).foldl compareSwap l := by
  intro k
  induction k with
  | zero => intro s l; rfl
  | succ k ih =>
    intro s l
    rw [List.range'_succ, List.range'_succ, List.foldl_cons, List.foldl_cons,
      compareSwap_cons_succ]
    exact ih (s + 1) _

theorem bubblePass_succ (k a b : Nat) (l : List Nat) :
    bubblePass (k + 1) (a :: b :: l) =
      if b < a then b :: bubblePass k (a :: l) else a :: bubblePass k (b :: l) := by
  unfold bubblePass
  rw [List.range'_succ, List.foldl_cons, compareSwap_zero]
  split
  · exact foldl_compareSwap_cons b k 0 _
  · exact foldl_compareSwap_cons a k 0 _

/-- One pass moves a largest entry of the first `k+1` to the position `k`. -/
theorem bubblePass_spec : ∀ (k : Nat) (P : List Nat), P.length = k + 1 →
    ∃ Q mx, bubblePass k P = Q ++ [mx] ∧ (Q ++ [mx]).Perm P ∧ ∀ q ∈ Q, q ≤ mx := by
  intro k
  induction k with
  | zero =>
    intro P hP
    match P, hP with
    | [a], _ => exact ⟨[], a, rfl, List.Perm.refl _, by simp⟩
  | succ k ih =>
    intro P hP
    match P, hP with
    | a :: b :: l, hP =>
      rw [bubblePass_succ]
      by_cases hba : b < a
      · rw [if_pos hba]
        obtain ⟨Q, mx, h1, h2, h3⟩ := ih (a :: l) (by simpa using hP)
        refine ⟨b :: Q, mx, by rw [h1]; rfl, ?_, ?_⟩
        · exact ((h2.cons b).trans (List.Perm.swap a b l))
        · intro q hq
          have ha : a ≤ mx := by
            have : a ∈ Q ++ [mx] := h2.mem_iff.2 (List.mem_cons_self _ _)
            rcases List.mem_append.1 this with h | h
            · exact h3 a h
            · simp at h; omega
          rcases List.mem_cons.1 hq with rfl | hq
          · omega
          · exact h3 q hq
      · rw [if_neg hba]
        obtain ⟨Q, mx, h1, h2, h3⟩ := ih (b :: l) (by simpa using hP)
        refine ⟨a :: Q, mx, by rw [h1]; rfl, h2.cons a, ?_⟩
        intro q hq
        have hb : b ≤ mx := by
          have : b ∈ Q ++ [mx] := h2.mem_iff.2 (List.mem_cons_self _ _)
          rcases List.mem_append.1 this with h | h
          · exact h3 b h
          · simp at h; omega
        rcases List.mem_cons.1 hq with rfl | hq
        · omega
        · exact h3 q hq

theorem compareSwap_append_left (A B : List Nat) (j : Nat) (hj : j + 1 < A.length) :
    compareSwap (A ++ B) j = compareSwap A j ++ B := by
  unfold compareSwap
  have e1 : indAt (A ++ B) (j + 1) = indAt A (j + 1) := by
    simp only [indAt, List.getD_eq_getElem?_getD, List.getElem?_append_left hj]
  have e2 : indAt (A ++ B) j = indAt A j := by
    simp only [indAt, List.getD_eq_getElem?_getD,
      List.getElem?_append_left (by omega : j < A.length)]
  rw [e1, e2, swapAt_append_left 0 A B j hj]
  split <;> rfl

theorem compareSwap_append_right (A B : List Nat) (j : Nat) :
    compareSwap (A ++ B) (j + A.length) = A ++ compareSwap B j := by
  unfold compareSwap
  have e1 : indAt (A ++ B) (j + A.length + 1) = indAt B (j + 1) := by
    simp only [indAt, List.getD_eq_getElem?_getD]
    rw [List.getElem?_append_right (by omega)]
    congr 2
    omega
  have e2 : indAt (A ++ B) (j + A.length) = indAt B j := by
    simp only [indAt, List.getD_eq_getElem?_getD]
    rw [List.getElem?_append_right (by omega)]
    congr 2
    omega
  rw [e1, e2, swapAt_append_right 0 A B j]
  split <;> rfl

theorem length_foldl_compareSwap (js : List Nat) :
    ∀ I : List Nat, (js.foldl compareSwap I).length = I.length := by
  induction js with
  | nil => intro I; rfl
  | cons j js ih => intro I; rw [List.foldl_cons, ih, length_compareSwap]

theorem foldl_compareSwap_append (B : List Nat) (js : List Nat) :
    ∀ A : List Nat, (∀ j ∈ js, j + 1 < A.length) →
      js.foldl compareSwap (A ++ B) = js.foldl compareSwap A ++ B := by
  induction js with
  | nil => intro A _; rfl
  | cons j js ih =>
    intro A h
    rw [List.foldl_cons, List.foldl_cons,
      compareSwap_append_left A B j (h j (List.mem_cons_self _ _))]
    apply ih
    intro i hi
    rw [length_compareSwap]
    exact h i (List.mem_cons_of_mem _ hi)

theorem bubblePass_append (k : Nat) (A B : List Nat) (hk : k < A.length) :
    bubblePass k (A ++ B) = bubblePass k A ++ B := by
  unfold bubblePass
  apply foldl_compareSwap_append
  intro j hj
  rw [List.mem_range'_1] at hj
  omega

theorem length_bubblePass (k : Nat) (I : List Nat) : (bubblePass k I).length = I.length :=
  length_foldl_compareSwap _ I

theorem length_bubbleSortPrefix (h : Nat) : ∀ (i : Nat) (l : List Nat),
    ((List.range i).foldl (fun l i => bubblePass (h - i - 1) l) l).length = l.length := by
  intro i
  induction i with
  | zero => intro l; rfl
  | succ i ih =>
    intro l
    rw [List.range_succ, List.foldl_append, List.foldl_cons, List.foldl_nil, length_bubblePass, ih]

/-- After `i` passes the last `i` entries of the block are sorted and not smaller than the
entries in front of them. -/
theorem bubbleSort_invariant (h : Nat) (l : List Nat) (hl : l.length = h) :
    ∀ i, i ≤ h →
      ((List.range i).foldl (fun l i => bubblePass (h - i - 1) l) l).Perm l ∧
      List.Sorted (· ≤ ·)
        (((List.range i).foldl (fun l i => bubblePass (h - i - 1) l) l).drop (h - i)) ∧
      ∀ x ∈ ((List.range i).foldl (fun l i => bubblePass (h - i - 1) l) l).take (h - i),
        ∀ y ∈ ((List.range i).foldl (fun l i => bubblePass (h - i - 1) l) l).drop (h - i),
          x ≤ y := by
  intro i
  induction i with
  | zero =>
    intro _
    have : l.drop h = [] := by
      rw [List.drop_eq_nil_iff]; omega
    simp [this]
  | succ i ih =>
    intro hi
    obtain ⟨hperm, hsorted, hle⟩ := ih (by omega)
    rw [List.range_succ, List.foldl_append, List.foldl_cons, List.foldl_nil]
    generalize hli : (List.range i).foldl (fun l i => bubblePass (h - i - 1) l) l = li at *
    have hlen : li.length = h := by
      rw [← hli, length_bubbleSortPrefix, hl]
    -- split the list in front of the sorted part
    have hsplit : li = li.take (h - i) ++ li.drop (h - i) := (List.take_append_drop _ _).symm
    have hPlen : (li.take (h - i)).length = (h - i - 1) + 1 := by
      rw [List.length_take]; omega
    obtain ⟨Q, mx, h1, h2, h3⟩ := bubblePass_spec (h - i - 1) (li.take (h - i)) hPlen
    have hpass : bubblePass (h - i - 1) li = Q ++ [mx] ++ li.drop (h - i) := by
      conv_lhs => rw [hsplit]
      rw [bubblePass_append _ _ _ (by rw [hPlen]; omega), h1]
    have hQlen : Q.length = h - (i + 1) := by
      have := h2.length_eq
      rw [List.length_append, List.length_singleton, hPlen] at this
      omega
    have hmx : mx ∈ li.take (h - i) := h2.mem_iff.1 (by simp)
    have htake : (Q ++ [mx] ++ li.drop (h - i)).take (h - (i + 1)) = Q := by
      rw [List.append_assoc, ← hQlen, List.take_left]
    have hdrop : (Q ++ [mx] ++ li.drop (h - i)).drop (h - (i + 1)) = mx :: li.drop (h - i) := by
      rw [List.append_assoc, ← hQlen, List.drop_left]
      rfl
    rw [hpass, htake, hdrop]
    refine ⟨?_, ?_, ?_⟩
    · refine List.Perm.trans ?_ hperm
      conv_rhs => rw [hsplit]
      exact h2.append_right _
    · rw [List.sorted_cons]
      exact ⟨fun y hy => hle mx hmx y hy, hsorted⟩
    · intro x hx y hy
      rcases List.mem_cons.1 hy with rfl | hy
      · exact h3 x hx
      · exact hle x (h2.mem_iff.1 (List.mem_append_left _ hx)) y hy

/-- The passes of `reorder(true)` sort a block. -/
theorem bubbleSort_spec (h : Nat) (l : List Nat) (hl : l.length = h) :
    (bubbleSort h l).Perm l ∧ List.Sorted (· ≤ ·) (bubbleSort h l) := by
  have := bubbleSort_invariant h l hl h (le_refl h)
  simp only [Nat.sub_self, List.drop_zero] at this
  exact ⟨this.1, this.2.1⟩

theorem length_bubbleSort (h : Nat) (l : List Nat) : (bubbleSort h l).length = l.length :=
  length_bubbleSortPrefix h h l

/-- The sequence of a term whose first `h` operators are creation operators and whose other
operators are annihilation operators. -/
theorem seqAt_block (h i : Nat) :
    seqAt (List.replicate h true ++ List.replicate h false) i = decide (i < h) := by
  simp only [seqAt, List.getD_eq_getElem?_getD, List.getElem?_append, List.length_replicate,
    List.getElem?_replicate]
  by_cases h1 : i < h
  · simp [h1]
  · by_cases h2 : i - h < h
    · simp [h1, h2]
    · simp [h1, h2]

/-- One conditional exchange of `reorder(true)` inside a block keeps the sequence and acts on
the mode indices as `compareSwap`. -/
theorem condSwap_block (h : Nat) (t : Term) (p : Nat) (hN : t.N = 2 * h)
    (hS : t.OperatorSequence = List.replicate h true ++ List.replicate h false)
    (hp : p + 1 < h ∨ (h ≤ p ∧ p + 1 < 2 * h)) :
    (if indAt t.Indices (p + 1) < indAt t.Indices p then t.forcedSwap p else t).N = 2 * h ∧
    (if indAt t.Indices (p + 1) < indAt t.Indices p then t.forcedSwap p else t).OperatorSequence
      = List.replicate h true ++ List.replicate h false ∧
    (if indAt t.Indices (p + 1) < indAt t.Indices p then t.forcedSwap p else t).Indices
      = compareSwap t.Indices p := by
  unfold compareSwap
  by_cases c : indAt t.Indices (p + 1) < indAt t.Indices p
  · rw [if_pos c, if_pos c, Term.forcedSwap_eq]
    refine ⟨hN, ?_, rfl⟩
    show swapAt false t.OperatorSequence p = _
    rw [hS]
    apply swapAt_eq_self
    · simp only [List.length_append, List.length_replicate]; omega
    · have := seqAt_block h p
      have := seqAt_block h (p + 1)
      simp only [seqAt] at *
      rcases hp with hp | hp
      · simp_all
        omega
      · simp_all
        omega
  · rw [if_neg c, if_neg c]
    exact ⟨hN, hS, rfl⟩

/-- One step of the inner loop of `reorder(true)` on a term of `h` creation operators followed
by `h` annihilation operators. -/
theorem reorderStep_block (h : Nat) (t : Term) (j : Nat) (hN : t.N = 2 * h)
    (hS : t.OperatorSequence = List.replicate h true ++ List.replicate h false)
    (hj : j + 1 < h) :
    (reorderStep true t j).N = 2 * h ∧
    (reorderStep true t j).OperatorSequence = List.replicate h true ++ List.replicate h false ∧
    (reorderStep true t j).Indices = compareSwap (compareSwap t.Indices j) (j + h) := by
  obtain ⟨a1, a2, a3⟩ := condSwap_block h t j hN hS (Or.inl hj)
  have e : reorderStep true t j =
      (if indAt (if indAt t.Indices (j + 1) < indAt t.Indices j then t.forcedSwap j else t).Indices
            (j + 1 + (if indAt t.Indices (j + 1) < indAt t.Indices j then t.forcedSwap j else t).N / 2)
          < indAt (if indAt t.Indices (j + 1) < indAt t.Indices j then t.forcedSwap j else t).Indices
            (j + (if indAt t.Indices (j + 1) < indAt t.Indices j then t.forcedSwap j else t).N / 2)
        then (if indAt t.Indices (j + 1) < indAt t.Indices j then t.forcedSwap j else t).forcedSwap
          (j + (if indAt t.Indices (j + 1) < indAt t.Indices j then t.forcedSwap j else t).N / 2)
        else (if indAt t.Indices (j + 1) < indAt t.Indices j then t.forcedSwap j else t)) := rfl
  rw [e]
  generalize (if indAt t.Indices (j + 1) < indAt t.Indices j then t.forcedSwap j else t) = t1 at *
  have hh : t1.N / 2 = h := by rw [a1]; omega
  rw [hh, show j + 1 + h = j + h + 1 by omega]
  obtain ⟨b1, b2, b3⟩ := condSwap_block h t1 (j + h) a1 a2 (Or.inr ⟨by omega, by omega⟩)
  exact ⟨b1, b2, by rw [b3, a3]⟩

theorem foldl_reorderStep_block (h : Nat) (js : List Nat) (hjs : ∀ j ∈ js, j + 1 < h) :
    ∀ t : Term, t.N = 2 * h →
      t.OperatorSequence = List.replicate h true ++ List.replicate h false →
      (js.foldl (reorderStep true) t).N = 2 * h ∧
      (js.foldl (reorderStep true) t).OperatorSequence
        = List.replicate h true ++ List.replicate h false ∧
      (js.foldl (reorderStep true) t).Indices
        = js.foldl (fun I j => compareSwap (compareSwap I j) (j + h)) t.Indices := by
  induction js with
  | nil => intro t hN hS; exact ⟨hN, hS, rfl⟩
  | cons j js ih =>
    intro t hN hS
    obtain ⟨a1, a2, a3⟩ := reorderStep_block h t j hN hS (hjs j (List.mem_cons_self _ _))
    obtain ⟨b1, b2, b3⟩ := ih (fun i hi => hjs i (List.mem_cons_of_mem _ hi)) _ a1 a2
    rw [List.foldl_cons, List.foldl_cons]
    exact ⟨b1, b2, by rw [b3, a3]⟩

theorem foldl_pair_append (h : Nat) (js : List Nat) (hjs : ∀ j ∈ js, j + 1 < h) :
    ∀ A B : List Nat, A.length = h → B.length = h →
      js.foldl (fun I j => compareSwap (compareSwap I j) (j + h)) (A ++ B)
        = js.foldl compareSwap A ++ js.foldl compareSwap B := by
  induction js with
  | nil => intro A B _ _; rfl
  | cons j js ih =>
    intro A B hA hB
    have hj := hjs j (List.mem_cons_self _ _)
    rw [List.foldl_cons, List.foldl_cons, List.foldl_cons,
      compareSwap_append_left A B j (by omega)]
    have e : j + h = j + (compareSwap A j).length := by rw [length_compareSwap, hA]
    rw [e, compareSwap_append_right]
    exact ih (fun i hi => hjs i (List.mem_cons_of_mem _ hi)) _ _
      (by rw [length_compareSwap, hA]) (by rw [length_compareSwap, hB])

theorem reorderRange_true (h i : Nat) :
    reorderRange (2 * h) true i = List.range' 0 (h - i - 1) := by
  unfold reorderRange
  simp

/-- The passes of `reorder(true)` sort the two blocks of mode indices side by side. -/
theorem foldl_reorder_block (h : Nat) (is : List Nat) :
    ∀ (t : Term) (A B : List Nat), t.N = 2 * h →
      t.OperatorSequence = List.replicate h true ++ List.replicate h false →
      t.Indices = A ++ B → A.length = h → B.length = h →
      (is.foldl (fun t1 i => (reorderRange (2 * h) true i).foldl (reorderStep true) t1) t).N
        = 2 * h ∧
      (is.foldl (fun t1 i => (reorderRange (2 * h) true i).foldl (reorderStep true) t1)
          t).OperatorSequence = List.replicate h true ++ List.replicate h false ∧
      (is.foldl (fun t1 i => (reorderRange (2 * h) true i).foldl (reorderStep true) t1) t).Indices
        = is.foldl (fun l i => bubblePass (h - i - 1) l) A ++
          is.foldl (fun l i => bubblePass (h - i - 1) l) B := by
  induction is with
  | nil => intro t A B hN hS hI _ _; exact ⟨hN, hS, hI⟩
  | cons i is ih =>
    intro t A B hN hS hI hA hB
    have hjs : ∀ j ∈ List.range' 0 (h - i - 1), j + 1 < h := by
      intro j hj
      rw [List.mem_range'_1] at hj
      omega
    obtain ⟨a1, a2, a3⟩ := foldl_reorderStep_block h _ hjs t hN hS
    rw [hI, foldl_pair_append h _ hjs A B hA hB] at a3
    rw [List.foldl_cons, List.foldl_cons, List.foldl_cons, reorderRange_true]
    exact ih _ _ _ a1 a2 a3 (by rw [length_bubblePass, hA]) (by rw [length_bubblePass, hB])

/-- C16: on a term of even length `N = 2h` whose first `h` operators are creation operators and
whose last `h` operators are annihilation operators, `reorder(true)` returns, leaves the sequence
unchanged and leaves the mode indices of each block a permutation of the original indices of
the block, sorted in non-decreasing order. -/
theorem Term.reorder_ascending (t : Term) (h : Nat) (hwf : WellFormed t) (hN : t.N = 2 * h)
    (hS : t.OperatorSequence = List.replicate h true ++ List.replicate h false) :
    ∃ t1, t.reorder true = .ok t1 ∧ t1.N = t.N ∧ t1.OperatorSequence = t.OperatorSequence ∧
      (t1.Indices.take h).Perm (t.Indices.take h) ∧
      List.Sorted (· ≤ ·) (t1.Indices.take h) ∧
      (t1.Indices.drop h).Perm (t.Indices.drop h) ∧
      List.Sorted (· ≤ ·) (t1.Indices.drop h) := by
  have hIlen : t.Indices.length = 2 * h := by rw [hwf.2, hN]
  have hA : (t.Indices.take h).length = h := by rw [List.length_take]; omega
  have hB : (t.Indices.drop h).length = h := by rw [List.length_drop]; omega
  obtain ⟨a1, a2, a3⟩ := foldl_reorder_block h (List.range h) t _ _ hN hS
    (List.take_append_drop h t.Indices).symm hA hB
  have e1 : (List.range h).foldl (fun l i => bubblePass (h - i - 1) l) (t.Indices.take h)
      = bubbleSort h (t.Indices.take h) := rfl
  have e2 : (List.range h).foldl (fun l i => bubblePass (h - i - 1) l) (t.Indices.drop h)
      = bubbleSort h (t.Indices.drop h) := rfl
  rw [e1, e2] at a3
  have hlenA : (bubbleSort h (t.Indices.take h)).length = h := by rw [length_bubbleSort, hA]
  have sA := bubbleSort_spec h _ hA
  have sB := bubbleSort_spec h _ hB
  by_cases h0 : t.N = 0
  · have hh : h = 0 := by omega
    have hI0 : t.Indices = [] := List.length_eq_zero.1 (by rw [hIlen]; omega)
    refine ⟨t, ?_, rfl, rfl, ?_⟩
    · unfold Term.reorder; rw [if_pos h0]
    · subst hh
      simp [hI0]
  · have hh : 0 < h := by omega
    have hassert : seqAt t.OperatorSequence 0 = true ∧
        seqAt t.OperatorSequence (t.N - 1) = false := by
      rw [hS, seqAt_block, seqAt_block]
      simp only [decide_eq_true_eq, decide_eq_false_iff_not]
      omega
    refine ⟨(List.range (t.N / 2)).foldl
      (fun t1 i => (reorderRange t.N true i).foldl (reorderStep true) t1) t, ?_, ?_, ?_, ?_⟩
    · unfold Term.reorder
      rw [if_neg h0, if_neg (not_not.2 hassert)]
    · rw [hN, Nat.mul_div_cancel_left h (by decide : 0 < 2)]; exact a1
    · rw [hN, Nat.mul_div_cancel_left h (by decide : 0 < 2), hS]; exact a2
    · rw [hN, Nat.mul_div_cancel_left h (by decide : 0 < 2), a3]
      rw [List.take_left' hlenA, List.drop_left' hlenA]
      exact ⟨sA.1, sA.2, sB.1, sB.2⟩

theorem Term.reorder_ascending_witness :
    ∃ t1, Term.reorder ⟨4, [true, true, false, false], [3, 1, 2, 0], 1⟩ true = .ok t1 ∧
      t1.OperatorSequence = [true, true, false, false] ∧
      List.Sorted (· ≤ ·) (t1.Indices.take 2) ∧ List.Sorted (· ≤ ·) (t1.Indices.drop 2) := by
  obtain ⟨t1, h1, _, h3, _, h5, _, h7⟩ :=
    Term.reorder_ascending ⟨4, [true, true, false, false], [3, 1, 2, 0], 1⟩ 2
      (by decide) (by decide) (by decide)
  exact ⟨t1, h1, h3, h5, h7⟩

/-- The target pattern of a term of `h` creation operators followed by `h` annihilation
operators is its own sequence. -/
theorem normalOrderedSequence_block (t : Term) (h : Nat) (hN : t.N = 2 * h)
    (hS : t.OperatorSequence = List.replicate h true ++ List.replicate h false) :
    normalOrderedSequence t = t.OperatorSequence := by
  unfold normalOrderedSequence
  rw [hS, hN]
  have hA : ∀ n, n ≤ h →
      (List.range n).foldl
        (fun s i => if ¬ seqAt (List.replicate h true ++ List.replicate h false) i = true
          then s ++ [false] else true :: s) [] = List.replicate n true := by
    intro n
    induction n with
    | zero => intro _; rfl
    | succ n ih =>
      intro hn
      rw [List.range_succ, List.foldl_append, ih (by omega), List.foldl_cons, List.foldl_nil,
        seqAt_block]
      simp only [decide_eq_true_eq, not_lt]
      rw [if_neg (by omega)]
      rfl
  have hB : ∀ m, m ≤ h →
      (List.range (h + m)).foldl
        (fun s i => if ¬ seqAt (List.replicate h true ++ List.replicate h false) i = true
          then s ++ [false] else true :: s) []
        = List.replicate h true ++ List.replicate m false := by
    intro m
    induction m with
    | zero => intro _; simpa using hA h (le_refl h)
    | succ m ih =>
      intro hm
      rw [show h + (m + 1) = (h + m) + 1 by omega, List.range_succ, List.foldl_append,
        ih (by omega), List.foldl_cons, List.foldl_nil, seqAt_block]
      simp only [decide_eq_true_eq, not_lt]
      rw [if_pos (by omega), List.append_assoc, List.replicate_succ']
  rw [show 2 * h = h + h by omega]
  exact hB h (le_refl h)

theorem foldl_eq_self {α β : Type} (f : α → β → α) (a : α) :
    ∀ l : List β, (∀ b ∈ l, f a b = a) → l.foldl f a = a := by
  intro l
  induction l with
  | nil => intro _; rfl
  | cons b l ih =>
    intro h
    rw [List.foldl_cons, h b (List.mem_cons_self _ _)]
    exact ih (fun c hc => h c (List.mem_cons_of_mem _ hc))

/-- On a term that is in normal order `reorder(true)` exchanges nothing. -/
theorem Term.reorder_of_normalOrdered (t : Term) (h : Nat) (hN : t.N = 2 * h)
    (hS : t.OperatorSequence = List.replicate h true ++ List.replicate h false)
    (hno : NormalOrdered t) : t.reorder true = .ok t := by
  unfold Term.reorder
  by_cases h0 : t.N = 0
  · rw [if_pos h0]
  · have hassert : seqAt t.OperatorSequence 0 = true ∧
        seqAt t.OperatorSequence (t.N - 1) = false := by
      rw [hS, seqAt_block, seqAt_block]
      simp only [decide_eq_true_eq, decide_eq_false_iff_not]
      omega
    rw [if_neg h0, if_neg (not_not.2 hassert)]
    congr 1
    apply foldl_eq_self
    intro i _
    apply foldl_eq_self
    intro j hj
    rw [hN, reorderRange_true, List.mem_range'_1] at hj
    have hh : t.N / 2 = h := by omega
    have c1 : ¬ indAt t.Indices (j + 1) < indAt t.Indices j := by
      have := hno.2 (j + 1) (by omega) j (by omega)
        (by rw [hS, seqAt_block, seqAt_block]; simp; omega)
      omega
    have c2 : ¬ indAt t.Indices (j + 1 + t.N / 2) < indAt t.Indices (j + t.N / 2) := by
      have := hno.2 (j + 1 + t.N / 2) (by omega) (j + t.N / 2) (by omega)
        (by rw [hS, seqAt_block, seqAt_block]; simp; omega)
      omega
    unfold reorderStep
    simp [c1, c2]

/-- On a term that is already in normal order, with `h` creation operators followed by `h`
annihilation operators, `makeNormalOrder` completes, returns no auxiliary term and leaves the
term unchanged; the matrix element of the term before the call is then the sum of the matrix
elements of the term after the call and of the auxiliary terms returned. -/
theorem makeNormalOrder_of_normalOrdered (t : Term) (h : Nat) (hN : t.N = 2 * h)
    (hS : t.OperatorSequence = List.replicate h true ++ List.replicate h false)
    (hno : NormalOrdered t) (fuel : Nat) :
    ∃ t1 aux, makeNormalOrderFuel (fuel + 1) t = .ok (t1, aux) ∧ t1 = t ∧ aux = [] ∧
      ∀ bra ket, t.getMatrixElement bra ket =
        t1.getMatrixElement bra ket + matrixElementSum aux bra ket := by
  refine ⟨t, [], ?_, rfl, rfl, ?_⟩
  · rw [makeNormalOrderFuel]
    have h1 : t.rearrange (normalOrderedSequence t) = .ok (t, []) := by
      unfold Term.rearrange
      rw [normalOrderedSequence_block t h hN hS, if_neg (by simp), if_pos rfl]
    rw [h1]
    simp only []
    rw [Term.reorder_of_normalOrdered t h hN hS hno]
    simp [normalOrderLoop]
  · intro bra ket
    simp [matrixElementSum]

/-- A larger budget changes no outcome of the loop of `makeNormalOrder` other than the
exhaustion of the budget. -/
theorem normalOrderLoop_stable (f g : Term → Except TermError (Term × List Term))
    (hfg : ∀ t r, f t = r → r ≠ .error .outOfFuel → g t = r) :
    ∀ (n : Nat) (before l : List Term) (r : Except TermError (List Term)),
      normalOrderLoop f n before l = r → r ≠ .error .outOfFuel →
      normalOrderLoop g (n + 1) before l = r := by
  intro n
  induction n with
  | zero =>
    intro before l r h hr
    cases l with
    | nil => simpa [normalOrderLoop] using h
    | cons cur after =>
      simp only [normalOrderLoop] at h
      exact absurd h.symm hr
  | succ n ih =>
    intro before l r h hr
    cases l with
    | nil => simpa [normalOrderLoop] using h
    | cons cur after =>
      simp only [normalOrderLoop] at h ⊢
      cases hf : f cur with
      | error e =>
        rw [hf] at h
        simp only [] at h
        have he : (Except.error e : Except TermError (Term × List Term)) ≠ .error .outOfFuel := by
          intro h'
          injection h' with h'
          subst h'
          exact hr h.symm
        rw [hfg cur _ hf he]
        exact h
      | ok p =>
        obtain ⟨cur1, out2⟩ := p
        rw [hf] at h
        rw [hfg cur _ hf (by intro h'; cases h')]
        simp only [] at h ⊢
        cases hl : after.getLast? with
        | none => rw [hl] at h; simpa using h
        | some last =>
          rw [hl] at h
          simp only [] at h ⊢
          exact ih _ _ _ h hr

/-- A larger budget changes no outcome of `makeNormalOrder` other than the exhaustion of the
budget. -/
theorem makeNormalOrderFuel_stable :
    ∀ (n : Nat) (t : Term) (r : Except TermError (Term × List Term)),
      makeNormalOrderFuel n t = r → r ≠ .error .outOfFuel →
      makeNormalOrderFuel (n + 1) t = r := by
  intro n
  induction n with
  | zero =>
    intro t r h hr
    simp only [makeNormalOrderFuel] at h
    exact absurd h.symm hr
  | succ n ih =>
    intro t r h hr
    rw [makeNormalOrderFuel] at h ⊢
    cases h1 : t.rearrange (normalOrderedSequence t) with
    | error e => rw [h1] at h; exact h
    | ok p =>
      obtain ⟨t1, out⟩ := p
      rw [h1] at h
      simp only [] at h ⊢
      cases h2 : t1.reorder true with
      | error e => rw [h2] at h; exact h
      | ok t2 =>
        rw [h2] at h
        simp only [] at h ⊢
        cases h3 : normalOrderLoop (makeNormalOrderFuel n) n [] out with
        | error e =>
          rw [h3] at h
          simp only [] at h
          have he : (Except.error e : Except TermError (List Term)) ≠ .error .outOfFuel := by
            intro h'
            injection h' with h'
            subst h'
            exact hr h.symm
          rw [normalOrderLoop_stable _ _ ih n [] out _ h3 he]
          exact h
        | ok out1 =>
          rw [h3] at h
          rw [normalOrderLoop_stable _ _ ih n [] out _ h3 (by intro h'; cases h')]
          exact h

theorem makeNormalOrderFuel_stable_add (n k : Nat) (t : Term)
    (r : Except TermError (Term × List Term)) (h : makeNormalOrderFuel n t = r)
    (hr : r ≠ .error .outOfFuel) : makeNormalOrderFuel (k + n) t = r := by
  induction k with
  | zero => simpa using h
  | succ k ih =>
    have := makeNormalOrderFuel_stable _ _ _ ih hr
    rwa [show k + 1 + n = k + n + 1 by omega]

/-- A larger budget does not change what the loop of `Operator::makeNormalOrder` returns. -/
theorem operatorNormalOrderLoop_add (n k : Nat) :
    ∀ (l done output : List Term) (r : List Term × List Term),
      operatorNormalOrderLoop n l done output = .ok r →
      operatorNormalOrderLoop (k + n) l done output = .ok r := by
  intro l
  induction l with
  | nil => intro done output r h; simpa [operatorNormalOrderLoop] using h
  | cons t rest ih =>
    intro done output r h
    simp only [operatorNormalOrderLoop] at h ⊢
    cases ht : makeNormalOrderFuel n t with
    | error e => rw [ht] at h; simp at h
    | ok p =>
      obtain ⟨t1, out⟩ := p
      rw [ht] at h
      rw [makeNormalOrderFuel_add n k t _ ht]
      exact ih _ _ _ h

/-- A larger budget does not change the normal form of the commutator. -/
theorem Operator.commutatorNormalForm_add (add : Int → Int → Int) (n k : Nat) (P : Int)
    (A B : Operator) (r : Option Operator)
    (h : Operator.commutatorNormalForm add n P A B = .ok r) :
    Operator.commutatorNormalForm add (k + n) P A B = .ok r := by
  unfold Operator.commutatorNormalForm at h ⊢
  cases hc : A.getCommutator B with
  | error e => rw [hc] at h; simp at h
  | ok c =>
    rw [hc] at h
    simp only [] at h ⊢
    have key : ∀ r1, c.makeNormalOrder add n P = .ok r1 →
        c.makeNormalOrder add (k + n) P = .ok r1 := by
      intro r1 h1
      unfold Operator.makeNormalOrder at h1 ⊢
      cases hl : operatorNormalOrderLoop n c.Terms [] [] with
      | error e => rw [hl] at h1; simp at h1
      | ok p =>
        rw [hl] at h1
        rw [operatorNormalOrderLoop_add n k _ _ _ _ hl]
        exact h1
    cases hm : c.makeNormalOrder add n P with
    | error e => rw [hm] at h; simp at h
    | ok r1 =>
      rw [hm] at h
      rw [key r1 hm]
      exact h

/-- C11 (evaluation at the failing input): for `A = c†_0` and `B = c_0`, with the pruning
threshold 1 and an addition of coefficients that gives `1 + 1 = 2`, the commutator after normal
ordering, reduction and pruning is the single term `c†_0 c_0` with coefficient 2, not the zero
operator, and `commutes` returns whatever value its uninitialised variable `out` holds, `true`
included. -/
theorem Operator.commutes_returns_uninitialised (add : Int → Int → Int) (hadd : add 1 1 = 2) :
    ValidTerm ⟨1, [true], [0], 1⟩ ∧ ValidTerm ⟨1, [false], [0], 1⟩ ∧
    (∀ k, Operator.commutatorNormalForm add (k + 1) 1 ⟨[⟨1, [true], [0], 1⟩]⟩
        ⟨[⟨1, [false], [0], 1⟩]⟩ = .ok (some ⟨[⟨2, [true, false], [0, 0], 2⟩]⟩)) ∧
    (∀ out k, Operator.commutes add out (k + 1) 1 ⟨[⟨1, [true], [0], 1⟩]⟩
        ⟨[⟨1, [false], [0], 1⟩]⟩ = .ok (some out)) := by
  have hc : Operator.getCommutator ⟨[⟨1, [true], [0], 1⟩]⟩ ⟨[⟨1, [false], [0], 1⟩]⟩ =
      .ok ⟨[⟨2, [true, false], [0, 0], 1⟩, ⟨2, [false, true], [0, 0], -1⟩]⟩ := by decide
  have hl : operatorNormalOrderLoop 1
      [⟨2, [true, false], [0, 0], 1⟩, ⟨2, [false, true], [0, 0], -1⟩] [] [] =
      .ok ([⟨2, [true, false], [0, 0], 1⟩, ⟨2, [true, false], [0, 0], 1⟩], []) := by decide
  have h1 : Operator.commutatorNormalForm add 1 1 ⟨[⟨1, [true], [0], 1⟩]⟩
      ⟨[⟨1, [false], [0], 1⟩]⟩ = .ok (some ⟨[⟨2, [true, false], [0, 0], 2⟩]⟩) := by
    simp [Operator.commutatorNormalForm, Operator.makeNormalOrder, hc, hl, spliceBeforeLast,
      Term.reduce, reduceOuter, reduceInner, hadd, Term.prune]
  have h : ∀ k, Operator.commutatorNormalForm add (k + 1) 1 ⟨[⟨1, [true], [0], 1⟩]⟩
      ⟨[⟨1, [false], [0], 1⟩]⟩ = .ok (some ⟨[⟨2, [true, false], [0, 0], 2⟩]⟩) :=
    fun k => Operator.commutatorNormalForm_add add 1 k 1 _ _ _ h1
  refine ⟨by decide, by decide, h, ?_⟩
  intro out k
  unfold Operator.commutes
  rw [h k]
  rfl

/-- C11 (witness): with the addition of integers the hypothesis holds, and `commutes` returns
`true` for `A = c†_0` and `B = c_0`, whose commutator is not zero. -/
theorem Operator.commutes_returns_uninitialised_witness :
    Int.add 1 1 = 2 ∧
    Operator.commutes Int.add true 1 1 ⟨[⟨1, [true], [0], 1⟩]⟩ ⟨[⟨1, [false], [0], 1⟩]⟩ =
      .ok (some true) :=
  ⟨by decide, (Operator.commutes_returns_uninitialised Int.add (by decide)).2.2.2 true 0⟩

/-- C5 (evaluation at the failing input): the valid terms `a = c_1 c†_0` with coefficient 1 and
`b = c†_0 c_1` with coefficient -1 are the same operator and `a == b` is true, for every
addition of coefficients and every budget that suffices, but between the ket with mode 1
occupied and the bra with mode 0 occupied `getMatrixElement` gives 1 for `a` and -1 for `b`. -/
theorem Term.operatorEq_not_identity :
    ValidTerm ⟨2, [false, true], [1, 0], 1⟩ ∧ ValidTerm ⟨2, [true, false], [0, 1], -1⟩ ∧
    (∀ add k, Term.operatorEq add (k + 1) ⟨2, [false, true], [1, 0], 1⟩
        ⟨2, [true, false], [0, 1], -1⟩ = .ok true) ∧
    Term.getMatrixElement ⟨2, [false, true], [1, 0], 1⟩ (.state [true, false]) [false, true]
      = 1 ∧
    Term.getMatrixElement ⟨2, [true, false], [0, 1], -1⟩ (.state [true, false]) [false, true]
      = -1 := by
  refine ⟨by decide, by decide, ?_, by decide, by decide⟩
  intro add k
  unfold Term.operatorEq
  rw [if_neg (by decide),
    makeNormalOrderFuel_add 1 k ⟨2, [false, true], [1, 0], 1⟩
      (⟨2, [true, false], [0, 1], -1⟩, []) (by decide),
    makeNormalOrderFuel_add 1 k ⟨2, [true, false], [0, 1], -1⟩
      (⟨2, [true, false], [0, 1], -1⟩, []) (by decide)]
  have h : Term.isExactlyEqual ⟨2, [true, false], [0, 1], -1⟩
      ⟨2, [true, false], [0, 1], -1⟩ = true := by decide
  simp [h, Term.reduce, reduceOuter]

/-- C12 (evaluation at the failing inputs): on the valid term `c_1 c†_0` with coefficient 1
`makeNormalOrder` completes, leaves `c†_0 c_1` with coefficient -1 and returns no auxiliary
term; between the ket with mode 1 occupied and the bra with mode 0 occupied the matrix element
is 1 before the call and -1 after it.  On the valid term `c_0 c†_1 c†_0 c_1` with coefficient 1
it leaves `c†_0 c†_1 c_0 c_1` with coefficient -1 and returns no auxiliary term; on the state
with mode 1 occupied the diagonal matrix element is 1 before the call and 0 after it. -/
theorem makeNormalOrder_changes_matrix_element :
    ValidTerm ⟨2, [false, true], [1, 0], 1⟩ ∧ Balanced ⟨2, [false, true], [1, 0], 1⟩ ∧
    (∀ k, makeNormalOrderFuel (k + 1) ⟨2, [false, true], [1, 0], 1⟩
      = .ok (⟨2, [true, false], [0, 1], -1⟩, [])) ∧
    Term.getMatrixElement ⟨2, [false, true], [1, 0], 1⟩ (.state [true, false]) [false, true]
      = 1 ∧
    Term.getMatrixElement ⟨2, [true, false], [0, 1], -1⟩ (.state [true, false]) [false, true]
      + matrixElementSum [] (.state [true, false]) [false, true] = -1 ∧
    ValidTerm ⟨4, [false, true, true, false], [0, 1, 0, 1], 1⟩ ∧
    Balanced ⟨4, [false, true, true, false], [0, 1, 0, 1], 1⟩ ∧
    (∀ k, makeNormalOrderFuel (k + 1) ⟨4, [false, true, true, false], [0, 1, 0, 1], 1⟩
      = .ok (⟨4, [true, true, false, false], [0, 1, 0, 1], -1⟩, [])) ∧
    Term.getMatrixElement ⟨4, [false, true, true, false], [0, 1, 0, 1], 1⟩
      (.state [false, true]) [false, true] = 1 ∧
    Term.getMatrixElement ⟨4, [true, true, false, false], [0, 1, 0, 1], -1⟩
      (.state [false, true]) [false, true]
      + matrixElementSum [] (.state [false, true]) [false, true] = 0 :=
  ⟨by decide, by decide, fun k => makeNormalOrderFuel_add 1 k _ _ (by decide), by decide,
    by decide, by decide, by decide, fun k => makeNormalOrderFuel_add 1 k _ _ (by decide),
    by decide, by decide⟩

/-- C13 (counterexample): `elementary_swap(1)` turns the valid term `c†_0 c_0 c†_0 c†_1 c_1`
into `c†_0 c†_0 c_0 c†_1 c_1`; on that term `elementary_swap(3)`, whose operators at the
positions 3 and 4 both act on mode 1, returns nothing: the remaining product `c†_0 c†_0 c_0`
fails the construction invariant and `exWrongOpSequence` is raised. -/
theorem Term.elementary_swap_same_mode_fails :
    ValidTerm ⟨5, [true, false, true, true, false], [0, 0, 0, 1, 1], 1⟩ ∧
    Term.elementary_swap ⟨5, [true, false, true, true, false], [0, 0, 0, 1, 1], 1⟩ 1 false
      = .ok (⟨5, [true, true, false, true, false], [0, 0, 0, 1, 1], -1⟩,
          [⟨3, [true, true, false], [0, 1, 1], 1⟩]) ∧
    Term.elementary_swap ⟨5, [true, true, false, true, false], [0, 0, 0, 1, 1], -1⟩ 3 false
      = .error .exWrongOpSequence := by
  decide

/-- C15 (evaluation at the failing input): `rearrange` of the valid term `c†_0 c_1` towards
the pattern creation, creation returns normally, with no auxiliary term, and leaves the
sequence creation, annihilation. -/
theorem Term.rearrange_misses_pattern :
    ValidTerm ⟨2, [true, false], [0, 1], 1⟩ ∧
    Term.rearrange ⟨2, [true, false], [0, 1], 1⟩ [true, true]
      = .ok (⟨2, [true, false], [0, 1], 1⟩, []) ∧
    ValidTerm ⟨3, [true, false, false], [0, 1, 2], 1⟩ ∧
    Term.rearrange ⟨3, [true, false, false], [0, 1, 2], 1⟩ [false, true, true]
      = .ok (⟨3, [false, true, false], [1, 0, 2], -1⟩, []) := by
  decide

/-- C17 (evaluation at the failing input): `reorder(false)` on the valid term
`c†_1 c†_2 c†_3 c_1 c_2 c_3` leaves the mode indices 2, 3, 1 in both blocks, which is not a
descending order. -/
theorem Term.reorder_descending_unsorted :
    ValidTerm ⟨6, [true, true, true, false, false, false], [1, 2, 3, 1, 2, 3], 1⟩ ∧
    Term.reorder ⟨6, [true, true, true, false, false, false], [1, 2, 3, 1, 2, 3], 1⟩ false
      = .ok ⟨6, [true, true, true, false, false, false], [2, 3, 1, 2, 3, 1], 1⟩ ∧
    ¬ List.Sorted (· ≥ ·) ([2, 3, 1, 2, 3, 1].take 3) ∧
    ¬ List.Sorted (· ≥ ·) ([2, 3, 1, 2, 3, 1].drop 3) := by
  decide

/-- C18 (evaluation at the failing input): for the valid term `c†_0 c_1` with coefficient 1
and the ket with only mode 1 occupied, `actRight` gives the state with only mode 0 occupied and
coefficient 1; after `elementary_swap(0)`, a pure transposition, it gives the same state with
coefficient -1. -/
theorem Term.elementary_swap_negates_action :
    ValidTerm ⟨2, [true, false], [0, 1], 1⟩ ∧
    Term.actRight ⟨2, [true, false], [0, 1], 1⟩ [false, true] = (.state [true, false], 1) ∧
    Term.elementary_swap ⟨2, [true, false], [0, 1], 1⟩ 0 false
      = .ok (⟨2, [false, true], [1, 0], -1⟩, []) ∧
    Term.actRight ⟨2, [false, true], [1, 0], -1⟩ [false, true] = (.state [true, false], -1) := by
  decide

/-- C19 (evaluation at the failing input): on the valid term `c_0 c†_0 c_0 c†_0`, which has
two creation and two annihilation operators, `makeNormalOrder` raises `exWrongOpSequence`: the
walk builds the auxiliary term `c_0 c_0`.  On the valid term `c_1 c†_0 c_0 c†_0` the walk
builds the auxiliary term `c_1 c_0`, on which the assertion of `reorder` fails. -/
theorem makeNormalOrder_fails_on_valid_term :
    ValidTerm ⟨4, [false, true, false, true], [0, 0, 0, 0], 1⟩ ∧
    Balanced ⟨4, [false, true, false, true], [0, 0, 0, 0], 1⟩ ∧
    (∀ k, makeNormalOrderFuel (k + 1) ⟨4, [false, true, false, true], [0, 0, 0, 0], 1⟩
      = .error .exWrongOpSequence) ∧
    ValidTerm ⟨4, [false, true, false, true], [1, 0, 0, 0], 1⟩ ∧
    Balanced ⟨4, [false, true, false, true], [1, 0, 0, 0], 1⟩ ∧
    Term.rearrange ⟨4, [false, true, false, true], [1, 0, 0, 0], 1⟩ [true, true, false, false]
      = .ok (⟨4, [true, true, false, false], [0, 0, 0, 1], -1⟩,
          [⟨2, [false, true], [1, 0], 1⟩, ⟨2, [false, false], [1, 0], -1⟩]) ∧
    Term.reorder ⟨2, [false, false], [1, 0], -1⟩ true = .error .assertFailed ∧
    (∀ k, makeNormalOrderFuel (k + 3) ⟨4, [false, true, false, true], [1, 0, 0, 0], 1⟩
      = .error .assertFailed) := by
  refine ⟨by decide, by decide, ?_, by decide, by decide, by decide, by decide,
    fun k => makeNormalOrderFuel_stable_add 3 k _ _ (by decide) (by decide)⟩
  intro k
  rw [makeNormalOrderFuel,
    show Term.rearrange ⟨4, [false, true, false, true], [0, 0, 0, 0], 1⟩
      (normalOrderedSequence ⟨4, [false, true, false, true], [0, 0, 0, 0], 1⟩)
      = .error .exWrongOpSequence by decide]

/-- C20 (counterexample): for `A = c†_0 c_0` with coefficient 2 and
`B = c†_1 c_1` with coefficient 3 both concatenations are valid; `A.getCommutator(B)` holds
the product `A·B` with coefficient 2 and `B·A` with -2, `B.getCommutator(A)` holds `B·A` with 3
and `A·B` with -3, not with -2 and 2: the coefficient of the argument is never read. -/
theorem Term.getCommutator_ignores_rhs_value :
    ValidTerm ⟨2, [true, false], [0, 0], 2⟩ ∧ ValidTerm ⟨2, [true, false], [1, 1], 3⟩ ∧
    Term.getCommutator ⟨2, [true, false], [0, 0], 2⟩ ⟨2, [true, false], [1, 1], 3⟩
      = .ok [⟨4, [true, false, true, false], [0, 0, 1, 1], 2⟩,
             ⟨4, [true, false, true, false], [1, 1, 0, 0], -2⟩] ∧
    Term.getCommutator ⟨2, [true, false], [1, 1], 3⟩ ⟨2, [true, false], [0, 0], 2⟩
      = .ok [⟨4, [true, false, true, false], [1, 1, 0, 0], 3⟩,
             ⟨4, [true, false, true, false], [0, 0, 1, 1], -3⟩] := by
  decide

/-- What `getCommutator` returns on terms whose vectors have `N` entries: the two concatenations
that do not vanish, the first with the coefficient of the receiver and the second with its
negation; the coefficient of the argument does not occur. -/
theorem Term.getCommutator_eq (A B : Term) (hA : WellFormed A) (hB : WellFormed B) :
    A.getCommutator B = .ok (
      (if Vanishes (A.N + B.N) (A.OperatorSequence ++ B.OperatorSequence)
          (A.Indices ++ B.Indices) then []
        else [⟨A.N + B.N, A.OperatorSequence ++ B.OperatorSequence, A.Indices ++ B.Indices,
          A.Value⟩]) ++
      (if Vanishes (A.N + B.N) (B.OperatorSequence ++ A.OperatorSequence)
          (B.Indices ++ A.Indices) then []
        else [⟨A.N + B.N, B.OperatorSequence ++ A.OperatorSequence, B.Indices ++ A.Indices,
          - A.Value⟩])) := by
  unfold Term.getCommutator
  simp only []
  rw [concat_seq _ _ _ _ _ hA.1 hB.1 rfl, concat_ind _ _ _ _ _ hA.2 hB.2 rfl,
    tryPush_new [] _ _ _ _ (by simp [hA.1, hB.1]) (by simp [hA.2, hB.2])]
  simp only [List.nil_append]
  rw [concat_seq _ _ _ _ _ hB.1 hA.1 (Nat.add_comm _ _),
    concat_ind _ _ _ _ _ hB.2 hA.2 (Nat.add_comm _ _),
    tryPush_new _ _ _ _ _ (by simp [hA.1, hB.1, Nat.add_comm])
      (by simp [hA.2, hB.2, Nat.add_comm])]

/-- C20 (amended): for validly constructed terms `A` and `B` whose two concatenations satisfy
the construction invariant, `A.getCommutator(B)` holds `A·B` with the coefficient of `A` and
`B·A` with its negation, `B.getCommutator(A)` holds `B·A` with the coefficient of `B` and `A·B`
with its negation, and the second list holds the products of the first with the negated
coefficients exactly when `A` and `B` have the same coefficient. -/
theorem Term.getCommutator_antisymmetric (A B : Term) (hA : ValidTerm A) (hB : ValidTerm B)
    (hAB : ¬ Vanishes (A.N + B.N) (A.OperatorSequence ++ B.OperatorSequence)
      (A.Indices ++ B.Indices))
    (hBA : ¬ Vanishes (A.N + B.N) (B.OperatorSequence ++ A.OperatorSequence)
      (B.Indices ++ A.Indices)) :
    A.getCommutator B = .ok
      [⟨A.N + B.N, A.OperatorSequence ++ B.OperatorSequence, A.Indices ++ B.Indices, A.Value⟩,
       ⟨A.N + B.N, B.OperatorSequence ++ A.OperatorSequence, B.Indices ++ A.Indices,
        - A.Value⟩] ∧
    B.getCommutator A = .ok
      [⟨A.N + B.N, B.OperatorSequence ++ A.OperatorSequence, B.Indices ++ A.Indices, B.Value⟩,
       ⟨A.N + B.N, A.OperatorSequence ++ B.OperatorSequence, A.Indices ++ B.Indices,
        - B.Value⟩] ∧
    (A.Value = B.Value ↔ B.getCommutator A = .ok
      [⟨A.N + B.N, B.OperatorSequence ++ A.OperatorSequence, B.Indices ++ A.Indices,
        - (- A.Value)⟩,
       ⟨A.N + B.N, A.OperatorSequence ++ B.OperatorSequence, A.Indices ++ B.Indices,
        - A.Value⟩]) := by
  have wA := ((validTerm_iff A).1 hA).1
  have wB := ((validTerm_iff B).1 hB).1
  have h1 := Term.getCommutator_eq A B wA wB
  have h2 := Term.getCommutator_eq B A wB wA
  rw [Nat.add_comm B.N A.N] at h2
  rw [if_neg hAB, if_neg hBA] at h1
  rw [if_neg hAB, if_neg hBA] at h2
  refine ⟨h1, h2, ?_⟩
  rw [h2]
  constructor
  · intro h
    rw [h, neg_neg]
    rfl
  · intro h
    simp at h
    omega

theorem Term.getCommutator_antisymmetric_witness :
    ValidTerm ⟨2, [true, false], [0, 0], 2⟩ ∧ ValidTerm ⟨2, [true, false], [1, 1], 2⟩ ∧
    Term.getCommutator ⟨2, [true, false], [0, 0], 2⟩ ⟨2, [true, false], [1, 1], 2⟩
      = .ok [⟨4, [true, false, true, false], [0, 0, 1, 1], 2⟩,
             ⟨4, [true, false, true, false], [1, 1, 0, 0], -2⟩] ∧
    Term.getCommutator ⟨2, [true, false], [1, 1], 2⟩ ⟨2, [true, false], [0, 0], 2⟩
      = .ok [⟨4, [true, false, true, false], [1, 1, 0, 0], 2⟩,
             ⟨4, [true, false, true, false], [0, 0, 1, 1], -2⟩] :=
  ⟨by decide, by decide,
    (Term.getCommutator_antisymmetric ⟨2, [true, false], [0, 0], 2⟩
      ⟨2, [true, false], [1, 1], 2⟩ (by decide) (by decide) (by decide) (by decide)).1,
    (Term.getCommutator_antisymmetric ⟨2, [true, false], [0, 0], 2⟩
      ⟨2, [true, false], [1, 1], 2⟩ (by decide) (by decide) (by decide) (by decide)).2.1⟩

end Pomerol
